import Mathlib

/-!
Shallow embedding of `src/templates/generate-config.py`, a generator that
assembles a CircleCI configuration from a base template, a test matrix
(example applications x versions x test suites) and per-application custom
step overrides.  Filesystem and version-control observations are abstracted
into an `Env` oracle; the Python functions are translated one-to-one into
Lean functions over that oracle.
-/

namespace GenConf

/-! ### Character and string helpers (Python `str.strip`, `str.split`, shell pipelines) -/

/-- Whitespace test used by the model of Python `str.strip`. -/
def isSpace (c : Char) : Bool := c.isWhitespace

/-- Word-constituent characters for `grep -w` (letters, digits, underscore). -/
def isWordChar (c : Char) : Bool := c.isAlphanum || c = '_'

/-- Decimal digit test. -/
def isDigitCh (c : Char) : Bool := '0' ≤ c && c ≤ '9'

/-- Model of Python `s.split(sep)` for a one-character separator:
splits around each occurrence, keeping empty pieces (so `[] ↦ [[]]`). -/
def pySplitChar (sep : Char) : List Char → List (List Char)
  | [] => [[]]
  | c :: cs =>
    if c = sep then [] :: pySplitChar sep cs
    else
      match pySplitChar sep cs with
      | [] => [[c]]
      | h :: t => (c :: h) :: t

/-- Join chunks with a separator between consecutive chunks. -/
def joinSep (sep : Char) : List (List Char) → List Char
  | [] => []
  | [x] => x
  | x :: y :: xs => x ++ sep :: joinSep sep (y :: xs)

/-- Join a list of lines with a newline between consecutive lines
(how the captured output of a line-producing shell pipeline is laid out). -/
def joinNL (l : List (List Char)) : List Char := joinSep '\n' l

/-- Model of Python `str.strip()`: drop whitespace from both ends. -/
def pyStrip (s : List Char) : List Char :=
  ((s.dropWhile isSpace).reverse.dropWhile isSpace).reverse

/-- Model of Python `needle in hay` substring containment. -/
def containsSub (needle : String) (hay : List Char) : Bool :=
  (List.range (hay.length + 1)).any fun i =>
    decide ((hay.drop i).take needle.length = needle.toList)

/-! ### The tag regular expression and `grep -E -w`

The source filters `git tag -l` output through
`grep -E -w 'v(0|([1-9][0-9]*)\.(0|([1-9][0-9]*))\.(0|[1-9][0-9]*))|latest'`.
`regexFullMatch m` holds exactly when the whole chunk `m` is matched by that
expression; `grepSelect` holds for a line containing a word-bounded match,
which is GNU grep's `-w` line-selection rule. -/

/-- A digit sequence with no leading zero (regex `[1-9][0-9]*`). -/
def nzDigits : List Char → Bool
  | [] => false
  | c :: cs => ('1' ≤ c && c ≤ '9') && cs.all isDigitCh

/-- One numeric component: `0` or a non-zero-leading digit sequence. -/
def versionComponent (s : List Char) : Bool := s = ['0'] || nzDigits s

/-- Whole-chunk match of the source's extended regex: either `v0`, or
`latest`, or `v<nz>.<comp>.<comp>` (the `0` alternative inside the outer
group covers only the bare `v0`; the dotted alternative forces a
non-zero-leading major). -/
def regexFullMatch (m : List Char) : Bool :=
  m = "v0".toList || m = "latest".toList ||
  (match m with
   | 'v' :: rest =>
     match pySplitChar '.' rest with
     | [a, b, c] => nzDigits a && versionComponent b && versionComponent c
     | _ => false
   | _ => false)

/-- The chunk `[i, j)` of `l` sits on word boundaries (grep `-w`). -/
def wordBounded (l : List Char) (i j : Nat) : Bool :=
  (i = 0 || !isWordChar (l.getD (i - 1) ' ')) &&
  (j = l.length || !isWordChar (l.getD j ' '))

/-- Line selection of `grep -E -w`: some substring is a word-bounded match. -/
def grepSelectL (l : List Char) : Bool :=
  (List.range (l.length + 1)).any fun i =>
    (List.range (l.length + 1)).any fun len =>
      regexFullMatch ((l.drop i).take len) && wordBounded l i (i + len)

/-- Line selection of the tag filter, on `String`s. -/
def grepSelect (s : String) : Bool := grepSelectL s.toList

/-! ### Path helpers (Python `os.path` / `pathlib`) -/

/-- Model of `os.path.join p s` for an absolute `p` without trailing
separator and a relative `s` (the only combinations the source builds). -/
def joinPath (p s : String) : String := p ++ "/" ++ s

/-- Model of `str(pathlib.Path(p).absolute())` for the already-absolute
paths the source passes: `pathlib` drops trailing separators. -/
def pathAbs (p : String) : String :=
  let q := (p.toList.reverse.dropWhile (fun c => c = '/')).reverse
  if q.isEmpty then "/" else String.mk q

/-- Model of `os.path.basename`: the part after the last separator. -/
def basename (p : String) : String :=
  String.mk ((pySplitChar '/' p.toList).getLastD [])

/-! ### Module-level constants of the script -/

/-- `dir_path`: directory containing the script. -/
def dir_path : String := "/repo/src/templates"

/-- `examples_path = join(parent(dir_path), "examples")`. -/
def examples_path : String := "/repo/src/examples"

/-- `test_suites_path = join(parent(dir_path), "test")`. -/
def test_suites_path : String := "/repo/src/test"

/-- `main_branch = "main"`. -/
def main_branch : String := "main"

/-- `app_and_name_from_path`: absolute path and its base name. -/
def app_and_name_from_path (test_harness_path : String) : String × String :=
  let test_path := pathAbs test_harness_path
  let test_name := basename test_path
  (test_path, test_name)

/-! ### YAML documents -/

/-- Loosely-typed YAML documents, as `yaml.safe_load` produces them:
`ynull` for Python `None`, scalars as strings, sequences, and mappings
as insertion-ordered key/value lists. -/
inductive Yaml where
  | ynull : Yaml
  | ystr : String → Yaml
  | yarr : List Yaml → Yaml
  | ymap : List (String × Yaml) → Yaml

/-- Python truthiness of a loaded YAML value (`if custom_config:` etc.). -/
def Yaml.truthy : Yaml → Bool
  | .ynull => false
  | .ystr s => !s.toList.isEmpty
  | .yarr l => !l.isEmpty
  | .ymap m => !m.isEmpty

/-- First value bound to a key in an association list. -/
def lookupKV : List (String × Yaml) → String → Option Yaml
  | [], _ => none
  | kv :: rest, k => if kv.1 = k then some kv.2 else lookupKV rest k

/-- Mapping lookup, `d[k]` / `d.get(k)`: first entry with the given key. -/
def Yaml.getKey : Yaml → String → Option Yaml
  | .ymap kvs, k => lookupKV kvs k
  | _, _ => none

/-- Python `d.get(k, default)`. -/
def Yaml.getD (y : Yaml) (k : String) (d : Yaml) : Yaml := (y.getKey k).getD d

/-- In-place update of the value stored under an existing key
(models mutating a nested container reached through `d[k]`). -/
def Yaml.modifyKey (y : Yaml) (k : String) (f : Yaml → Yaml) : Yaml :=
  match y with
  | .ymap kvs => .ymap (kvs.map fun kv => if kv.1 = k then (kv.1, f kv.2) else kv)
  | other => other

/-- Python `d[k] = v` on a mapping: replace the value if the key exists,
otherwise add the key at the end (dict insertion order). -/
def Yaml.setKey (y : Yaml) (k : String) (v : Yaml) : Yaml :=
  match y with
  | .ymap kvs =>
    if kvs.any (fun kv => decide (kv.1 = k)) then
      .ymap (kvs.map fun kv => if kv.1 = k then (kv.1, v) else kv)
    else
      .ymap (kvs ++ [(k, v)])
  | other => other

/-! ### The environment oracle

All filesystem and version-control observations the script makes, frozen
for one run: directory tests and listings, file tests and parsed file
contents, the lines printed by `git tag -l`, and the combined output of
`git checkout <version> && ls <test_suites_path>` per version. -/

structure Env where
  isDir : String → Bool
  listDir : String → List String
  isFile : String → Bool
  pathExists : String → Bool
  fileYaml : String → Yaml
  gitTagLines : List String
  checkoutLsOutput : String → String

/-! ### Translated source functions -/

/-- `is_valid`: the path is a directory whose listing contains
`test_entrypoint.sh`. -/
def is_valid (env : Env) (test_harness_path : String) : Bool :=
  if !env.isDir test_harness_path then false
  else
    let elements := (env.listDir test_harness_path).map (fun name => basename name)
    if !(elements.contains "test_entrypoint.sh") then false
    else true

/-- `extends_config`: the application directory contains
`circle_config.yml`. -/
def extends_config (env : Env) (application_path : String) : Bool :=
  if !env.isDir application_path then false
  else
    let elements := (env.listDir application_path).map (fun name => basename name)
    elements.contains "circle_config.yml"

/-- `load_circle_config`: parsed `circle_config.yml` when the file exists,
Python `None` (here `Option.none`) otherwise. -/
def load_circle_config (env : Env) (application_path : String) : Option Yaml :=
  let config_path := joinPath application_path "circle_config.yml"
  if env.isFile config_path then some (env.fileYaml config_path) else none

/-- `get_git_tags`: pipe the tag lines through the word-bounded regex
filter, capture the pipeline's output as one string, then Python
`.strip().split("\n")` (so an empty capture yields `[""]`). -/
def get_git_tags (env : Env) : List String :=
  let selected := (env.gitTagLines.map String.toList).filter grepSelectL
  let output := pyStrip (joinNL selected)
  (pySplitChar '\n' output).map (fun cs => String.mk cs)

/-- Diagnostic printed when a checkout-and-list fails. -/
def checkoutFailMsg (version : String) : String :=
  "Failed to checkout or list test suites for version: " ++ version

/-- `list_test_suites_for_version`: capture
`git checkout <version> && ls <test_suites_path>`, strip it; an `error:`
marker yields no suites plus a diagnostic, otherwise split into lines. -/
def list_test_suites_for_version (env : Env) (version : String) : List String × List String :=
  let output := pyStrip (env.checkoutLsOutput version).toList
  if containsSub "error:" output then
    ([], [checkoutFailMsg version])
  else
    ((pySplitChar '\n' output).map (fun cs => String.mk cs), [])

/-- `wrap_with_condition`: guard steps on the active example-app name. -/
def wrap_with_condition (steps : Yaml) (app_name : String) : Yaml :=
  .ymap [("when", .ymap [
    ("condition", .ymap [
      ("equal", .yarr [.ystr "<< parameters.example-app-name >>", .ystr app_name])]),
    ("steps", steps)])]

/-- Python `list.insert n x` (clamping, as `list.insert` does). -/
def pyInsert {α : Type} (l : List α) (n : Nat) (x : α) : List α :=
  l.take n ++ x :: l.drop n

/-- Apply a list transformation to the shared job's step sequence, i.e. to
the value at `jobs.test-example.steps` (models the in-place mutation
`circle_config['jobs']['test-example']['steps']`). -/
def modifySteps (cfg : Yaml) (f : List Yaml → List Yaml) : Yaml :=
  cfg.modifyKey "jobs" fun j =>
    j.modifyKey "test-example" fun t =>
      t.modifyKey "steps" fun s =>
        match s with
        | .yarr l => .yarr (f l)
        | other => other

/-- `merge_with_custom_steps`: insert guarded `before` steps at index 1
and append guarded `after` steps at the end of the shared step list. -/
def merge_with_custom_steps (circle_config custom_config : Yaml) (app_name : String) : Yaml :=
  let before_steps := custom_config.getD "before" (Yaml.yarr [])
  let after_steps := custom_config.getD "after" (Yaml.yarr [])
  let cfg1 :=
    if before_steps.truthy then
      modifySteps circle_config
        (fun l => pyInsert l 1 (wrap_with_condition before_steps app_name))
    else circle_config
  if after_steps.truthy then
    modifySteps cfg1 (fun l => l ++ [wrap_with_condition after_steps app_name])
  else cfg1

/-- Diagnostic printed for an application without custom steps. -/
def noCustomMsg (app_path : String) : String :=
  "Software under " ++ app_path ++ " doesn\x27t provide custom CircleCI steps."

/-- One iteration of the `append_custom_yamls` loop. -/
def acyStep (env : Env) (acc : Yaml × List String) (app : String) : Yaml × List String :=
  let app_path := (app_and_name_from_path app).1
  let app_name := (app_and_name_from_path app).2
  if !extends_config env app_path then
    (acc.1, acc.2 ++ [noCustomMsg app_path])
  else
    match load_circle_config env app_path with
    | some custom_config =>
      if custom_config.truthy then
        (merge_with_custom_steps acc.1 custom_config app_name, acc.2)
      else (acc.1, acc.2)
    | none => (acc.1, acc.2)

/-- `append_custom_yamls`: fold the custom-step merge over the discovered
applications, collecting the printed diagnostics. -/
def append_custom_yamls (env : Env) (circle_config : Yaml) (example_apps : List String) :
    Yaml × List String :=
  example_apps.foldl (acyStep env) (circle_config, [])

/-- Diagnostic printed for an application missing its entrypoint. -/
def invalidAppMsg (app : String) : String :=
  "---\nApp: " ++ app ++ "\nwill not be executed.\ntest_entrypoint.sh is missing.\n---"

/-- Diagnostic printed for a suite missing its entrypoint. -/
def invalidSuiteMsg (suite : String) : String :=
  "---\nTest Suite: " ++ suite ++ "\nwill not be executed.\ntest_entrypoint.sh is missing.\n---"

/-- The `new_example` dictionary built for one (app, version, suite path)
triple, wrapped later under the `test-example` key. -/
def mkDescriptor (app version suite_path : String) : Yaml :=
  let app_path := (app_and_name_from_path app).1
  let app_name := (app_and_name_from_path app).2
  let suite_name := (app_and_name_from_path suite_path).2
  .ymap [
    ("example-app-path", .ystr app_path),
    ("test-suite-name", .ystr suite_name),
    ("example-app-name", .ystr app_name),
    ("test-suite-path", .ystr suite_path),
    ("bb-version", .ystr version),
    ("name", .ystr (app_name ++ " (" ++ suite_name ++ " test suite , version: " ++ version ++ ")"))]

/-- A generated job entry: `{"test-example": descriptor}`. -/
def mkJob (app version suite_path : String) : Yaml :=
  .ymap [("test-example", mkDescriptor app version suite_path)]

/-- One iteration of the inner suite loop of `list_test_executions`. -/
def suiteStep (env : Env) (app version : String) (acc : List Yaml × List String)
    (suite : String) : List Yaml × List String :=
  let suite_path := joinPath test_suites_path suite
  if !env.pathExists suite_path || !is_valid env suite_path then
    (acc.1, acc.2 ++ [invalidSuiteMsg suite])
  else
    (acc.1 ++ [mkJob app version suite_path], acc.2)

/-- The work done for one `(app, version)` pair of the product loop:
the jobs appended and the diagnostics printed, in order. -/
def jobsForPair (env : Env) (app version : String) : List Yaml × List String :=
  if !is_valid env app then ([], [invalidAppMsg app])
  else
    let r := list_test_suites_for_version env version
    r.1.foldl (suiteStep env app version) ([], r.2)

/-- `itertools.product(example_apps, versions)`: application-outer,
version-inner pair enumeration. -/
def productPairs : List String → List String → List (String × String)
  | [], _ => []
  | a :: rest, versions => versions.map (fun v => (a, v)) ++ productPairs rest versions

/-- One iteration of the `(app, version)` product loop. -/
def lteStep (env : Env) (acc : List Yaml × List String) (pair : String × String) :
    List Yaml × List String :=
  let r := jobsForPair env pair.1 pair.2
  (acc.1 ++ r.1, acc.2 ++ r.2)

/-- `list_test_executions`: run the pair loop over the product, keeping
the accumulated jobs and the printed diagnostics. -/
def list_test_executions (env : Env) (example_apps versions : List String) :
    List Yaml × List String :=
  (productPairs example_apps versions).foldl (lteStep env) ([], [])

/-- `available_examples`: subdirectories of the examples root, in listing
order (`pathlib.Path(examples_path).iterdir()` filtered by `isdir`). -/
def available_examples (env : Env) : List String :=
  ((env.listDir examples_path).map (fun name => joinPath examples_path name)).filter env.isDir

/-- `available_versions` after the `append(main_branch)` on line 150. -/
def availableVersions (env : Env) : List String :=
  get_git_tags env ++ [main_branch]

/-- The assignment
`circle_config['workflows']['test_everything']['jobs'] = jobs`. -/
def installJobs (base : Yaml) (jobs : List Yaml) : Yaml :=
  base.modifyKey "workflows" fun w =>
    w.modifyKey "test_everything" fun t => t.setKey "jobs" (.yarr jobs)

/-- The main block (lines 145-153): install the matrix into the workflow
job list, then merge the per-application custom steps; also return the
diagnostics printed along the way. -/
def assemble (env : Env) (base : Yaml) : Yaml × List String :=
  let m := list_test_executions env (available_examples env) (availableVersions env)
  let cfg1 := installJobs base m.1
  let r := append_custom_yamls env cfg1 (available_examples env)
  (r.1, m.2 ++ r.2)

/-! ### Observers used to state the claims -/

/-- The descriptor wrapped in a job entry. -/
def descriptorOf (j : Yaml) : Option Yaml := j.getKey "test-example"

/-- A string-valued field of a mapping. -/
def fieldStr (d : Yaml) (k : String) : Option String :=
  match d.getKey k with
  | some (.ystr s) => some s
  | _ => none

/-- Whether a job entry is the job for a given application path, version
and suite name. -/
def isJobFor (j : Yaml) (p v n : String) : Bool :=
  match descriptorOf j with
  | some d =>
    decide (fieldStr d "example-app-path" = some p) &&
    decide (fieldStr d "bb-version" = some v) &&
    decide (fieldStr d "test-suite-name" = some n)
  | none => false

/-- The application path recorded in a job entry. -/
def jobAppPath (j : Yaml) : Option String :=
  (descriptorOf j).bind (fun d => fieldStr d "example-app-path")

/-- The composite name recorded in a job entry. -/
def jobName (j : Yaml) : Option String :=
  (descriptorOf j).bind (fun d => fieldStr d "name")

/-- The display name a suite listing entry resolves to. -/
def suiteNameOf (suite : String) : String :=
  (app_and_name_from_path (joinPath test_suites_path suite)).2

/-- The shared job's step sequence, `jobs.test-example.steps`. -/
def getSteps (cfg : Yaml) : Option Yaml :=
  ((cfg.getKey "jobs").bind (fun j => j.getKey "test-example")).bind
    (fun t => t.getKey "steps")

/-- Lookup along a key path. -/
def getPath (cfg : Yaml) : List String → Option Yaml
  | [] => some cfg
  | k :: ks =>
    match cfg.getKey k with
    | some v => getPath v ks
    | none => none

/-- Clearly spec-side definition, for the refinement comparison of the
version-tag claim: the spec's stated tag form, `v<major>.<minor>.<patch>`
with each numeric component either `0` or non-zero-leading, or the literal
`latest`. -/
def specVersionTagForm (s : String) : Bool :=
  s = "latest" ||
  (match s.toList with
   | 'v' :: rest =>
     match pySplitChar '.' rest with
     | [a, b, c] => versionComponent a && versionComponent b && versionComponent c
     | _ => false
   | _ => false)

/-! ### Lemmas about mapping lookup and update -/

theorem lookupKV_modify_self (k : String) (f : Yaml → Yaml) :
    ∀ kvs : List (String × Yaml),
      lookupKV (kvs.map fun kv => if kv.1 = k then (kv.1, f kv.2) else kv) k
        = (lookupKV kvs k).map f
  | [] => rfl
  | kv :: rest => by
    by_cases h : kv.1 = k
    · simp [lookupKV, h]
    · simp [lookupKV, h, lookupKV_modify_self k f rest]

theorem getKey_modifyKey_self (y : Yaml) (k : String) (f : Yaml → Yaml) :
    (y.modifyKey k f).getKey k = (y.getKey k).map f := by
  cases y with
  | ymap kvs => simpa [Yaml.modifyKey, Yaml.getKey] using lookupKV_modify_self k f kvs
  | ynull => rfl
  | ystr s => rfl
  | yarr l => rfl

theorem lookupKV_modify_ne {k k' : String} (f : Yaml → Yaml) (h : k' ≠ k) :
    ∀ kvs : List (String × Yaml),
      lookupKV (kvs.map fun kv => if kv.1 = k then (kv.1, f kv.2) else kv) k'
        = lookupKV kvs k'
  | [] => rfl
  | kv :: rest => by
    by_cases hk : kv.1 = k
    · simp [lookupKV, hk, Ne.symm h, lookupKV_modify_ne f h rest]
    · have hhead : (if kv.1 = k then (kv.1, f kv.2) else kv) = kv := if_neg hk
      by_cases hb : kv.1 = k'
      · rw [List.map_cons, hhead]
        simp [lookupKV, hb]
      · rw [List.map_cons, hhead]
        simp [lookupKV, hb, lookupKV_modify_ne f h rest]

theorem getKey_modifyKey_ne (y : Yaml) {k k' : String} (f : Yaml → Yaml) (h : k' ≠ k) :
    (y.modifyKey k f).getKey k' = y.getKey k' := by
  cases y with
  | ymap kvs => simpa [Yaml.modifyKey, Yaml.getKey] using lookupKV_modify_ne f h kvs
  | ynull => rfl
  | ystr s => rfl
  | yarr l => rfl

theorem lookupKV_append_right (k : String) (l2 : List (String × Yaml)) :
    ∀ l1 : List (String × Yaml), lookupKV l1 k = none →
      lookupKV (l1 ++ l2) k = lookupKV l2 k
  | [], _ => rfl
  | kv :: rest, h => by
    by_cases hk : kv.1 = k
    · simp [lookupKV, hk] at h
    · simp only [lookupKV, hk, if_false] at h
      simpa [lookupKV, hk] using lookupKV_append_right k l2 rest h

theorem lookupKV_none_of_any_false (k : String) :
    ∀ kvs : List (String × Yaml), kvs.any (fun kv => decide (kv.1 = k)) = false →
      lookupKV kvs k = none
  | [], _ => rfl
  | kv :: rest, h => by
    rw [List.any_cons, Bool.or_eq_false_iff] at h
    have h1 : ¬kv.1 = k := by simpa using h.1
    simp [lookupKV, h1, lookupKV_none_of_any_false k rest h.2]

theorem lookupKV_isSome_of_any_true (k : String) :
    ∀ kvs : List (String × Yaml), kvs.any (fun kv => decide (kv.1 = k)) = true →
      (lookupKV kvs k).isSome
  | kv :: rest, h => by
    by_cases hk : kv.1 = k
    · simp [lookupKV, hk]
    · rw [List.any_cons] at h
      have h2 : rest.any (fun kv => decide (kv.1 = k)) = true := by
        rcases Bool.or_eq_true_iff.mp h with h' | h'
        · exact absurd (by simpa using h') hk
        · exact h'
      simpa [lookupKV, hk] using lookupKV_isSome_of_any_true k rest h2

theorem getKey_setKey_self (kvs : List (String × Yaml)) (k : String) (v : Yaml) :
    ((Yaml.ymap kvs).setKey k v).getKey k = some v := by
  by_cases ha : kvs.any (fun kv => decide (kv.1 = k)) = true
  · have hset : (Yaml.ymap kvs).setKey k v
        = Yaml.ymap (kvs.map fun kv => if kv.1 = k then (kv.1, v) else kv) := by
      simp only [Yaml.setKey]
      rw [if_pos ha]
    rw [hset]
    show lookupKV (kvs.map fun kv => if kv.1 = k then (kv.1, v) else kv) k = some v
    rw [lookupKV_modify_self k (fun _ => v) kvs]
    have h2 := lookupKV_isSome_of_any_true k kvs ha
    cases hx : lookupKV kvs k with
    | none => rw [hx] at h2; simp at h2
    | some w => rfl
  · rw [Bool.not_eq_true] at ha
    have hset : (Yaml.ymap kvs).setKey k v = Yaml.ymap (kvs ++ [(k, v)]) := by
      simp only [Yaml.setKey]
      rw [if_neg (by simp [ha])]
    rw [hset]
    show lookupKV (kvs ++ [(k, v)]) k = some v
    rw [lookupKV_append_right k _ kvs (lookupKV_none_of_any_false k kvs ha)]
    simp [lookupKV]

theorem lookupKV_append_single_ne {k k' : String} (v : Yaml) (h : k' ≠ k) :
    ∀ kvs : List (String × Yaml),
      lookupKV (kvs ++ [(k, v)]) k' = lookupKV kvs k'
  | [] => by simp [lookupKV, Ne.symm h]
  | kv :: rest => by
    by_cases hb : kv.1 = k'
    · simp [lookupKV, hb]
    · simp [lookupKV, hb, lookupKV_append_single_ne v h rest]

theorem getKey_setKey_ne (kvs : List (String × Yaml)) {k k' : String} (v : Yaml)
    (h : k' ≠ k) :
    ((Yaml.ymap kvs).setKey k v).getKey k' = (Yaml.ymap kvs).getKey k' := by
  by_cases ha : kvs.any (fun kv => decide (kv.1 = k)) = true
  · have hset : (Yaml.ymap kvs).setKey k v
        = Yaml.ymap (kvs.map fun kv => if kv.1 = k then (kv.1, v) else kv) := by
      simp only [Yaml.setKey]
      rw [if_pos ha]
    rw [hset]
    show lookupKV (kvs.map fun kv => if kv.1 = k then (kv.1, v) else kv) k'
      = (Yaml.ymap kvs).getKey k'
    rw [lookupKV_modify_ne (fun _ => v) h kvs]
    rfl
  · rw [Bool.not_eq_true] at ha
    have hset : (Yaml.ymap kvs).setKey k v = Yaml.ymap (kvs ++ [(k, v)]) := by
      simp only [Yaml.setKey]
      rw [if_neg (by simp [ha])]
    rw [hset]
    show lookupKV (kvs ++ [(k, v)]) k' = (Yaml.ymap kvs).getKey k'
    rw [lookupKV_append_single_ne v h kvs]
    rfl

/-! ### Lemmas about the shared step list -/

/-- The value-level effect of `modifySteps` on the step sequence. -/
def stepsImage (f : List Yaml → List Yaml) : Yaml → Yaml
  | .yarr l => .yarr (f l)
  | o => o

theorem getSteps_modifySteps (cfg : Yaml) (f : List Yaml → List Yaml) :
    getSteps (modifySteps cfg f) = (getSteps cfg).map (stepsImage f) := by
  unfold getSteps modifySteps
  rw [getKey_modifyKey_self]
  cases h1 : cfg.getKey "jobs" with
  | none => simp
  | some j =>
    simp only [Option.map_some', Option.some_bind]
    rw [getKey_modifyKey_self]
    cases h2 : j.getKey "test-example" with
    | none => simp
    | some t =>
      simp only [Option.map_some', Option.some_bind]
      rw [getKey_modifyKey_self]
      cases h3 : t.getKey "steps" with
      | none => simp
      | some s => cases s <;> simp [stepsImage]

theorem modifyKey_modifyKey (y : Yaml) (k : String) (f g : Yaml → Yaml) :
    (y.modifyKey k f).modifyKey k g = y.modifyKey k (fun v => g (f v)) := by
  cases y with
  | ymap kvs =>
    simp only [Yaml.modifyKey, List.map_map]
    congr 1
    apply List.map_congr_left
    intro kv _
    by_cases h : kv.1 = k
    · simp [Function.comp, h]
    · simp [Function.comp, h]
  | ynull => rfl
  | ystr s => rfl
  | yarr l => rfl

theorem modifyKey_id (y : Yaml) (k : String) : y.modifyKey k (fun v => v) = y := by
  cases y with
  | ymap kvs =>
    simp only [Yaml.modifyKey]
    congr 1
    induction kvs with
    | nil => rfl
    | cons kv rest ih =>
      by_cases h : kv.1 = k
      · simp [h, ih]
      · simp [h, ih]
  | ynull => rfl
  | ystr s => rfl
  | yarr l => rfl

theorem modifySteps_modifySteps (cfg : Yaml) (f g : List Yaml → List Yaml) :
    modifySteps (modifySteps cfg f) g = modifySteps cfg (fun l => g (f l)) := by
  unfold modifySteps
  rw [modifyKey_modifyKey]
  congr 1
  funext j
  rw [modifyKey_modifyKey]
  congr 1
  funext t
  rw [modifyKey_modifyKey]
  congr 1
  funext s
  cases s <;> rfl

theorem modifySteps_id (cfg : Yaml) : modifySteps cfg (fun l => l) = cfg := by
  unfold modifySteps
  have h2 : ∀ t : Yaml, (t.modifyKey "steps" fun s =>
      match s with | Yaml.yarr l => Yaml.yarr l | other => other) = t := by
    intro t
    have he : (fun s => match s with | Yaml.yarr l => Yaml.yarr l | other => other)
        = fun s : Yaml => s := by
      funext s
      cases s <;> rfl
    rw [he]
    exact modifyKey_id t "steps"
  simp only [h2, modifyKey_id]

/-- The combined effect of one custom-step merge on the shared step list. -/
def customStepsTransform (custom_config : Yaml) (app_name : String)
    (l : List Yaml) : List Yaml :=
  let before_steps := custom_config.getD "before" (Yaml.yarr [])
  let after_steps := custom_config.getD "after" (Yaml.yarr [])
  let l1 :=
    if before_steps.truthy then pyInsert l 1 (wrap_with_condition before_steps app_name)
    else l
  if after_steps.truthy then l1 ++ [wrap_with_condition after_steps app_name] else l1

theorem merge_eq_modifySteps (cfg custom : Yaml) (n : String) :
    merge_with_custom_steps cfg custom n = modifySteps cfg (customStepsTransform custom n) := by
  unfold merge_with_custom_steps customStepsTransform
  by_cases hb : (custom.getD "before" (Yaml.yarr [])).truthy = true
  · by_cases ha : (custom.getD "after" (Yaml.yarr [])).truthy = true
    · simp [hb, ha, modifySteps_modifySteps]
    · simp [hb, ha]
  · by_cases ha : (custom.getD "after" (Yaml.yarr [])).truthy = true
    · simp [hb, ha]
    · simp [hb, ha, modifySteps_id]

/-- The configuration produced by one application's turn of the
`append_custom_yamls` loop (the log dropped). -/
def stepOne (env : Env) (cfg : Yaml) (app : String) : Yaml :=
  let app_path := (app_and_name_from_path app).1
  let app_name := (app_and_name_from_path app).2
  if !extends_config env app_path then cfg
  else
    match load_circle_config env app_path with
    | some custom_config =>
      if custom_config.truthy then merge_with_custom_steps cfg custom_config app_name
      else cfg
    | none => cfg

/-- The configuration after the whole `append_custom_yamls` loop. -/
def applyAll (env : Env) : List String → Yaml → Yaml
  | [], cfg => cfg
  | a :: rest, cfg => applyAll env rest (stepOne env cfg a)

theorem acyStep_fst (env : Env) (acc : Yaml × List String) (app : String) :
    (acyStep env acc app).1 = stepOne env acc.1 app := by
  unfold acyStep stepOne
  by_cases h : (!extends_config env (app_and_name_from_path app).1) = true
  · simp only [h, if_true]
  · simp only [h, if_false]
    cases load_circle_config env (app_and_name_from_path app).1 with
    | none => rfl
    | some c => by_cases ht : c.truthy = true <;> simp [ht]

theorem foldl_acyStep (env : Env) :
    ∀ (apps : List String) (cfg : Yaml) (log : List String),
      (apps.foldl (acyStep env) (cfg, log)).1 = applyAll env apps cfg
  | [], _, _ => rfl
  | a :: rest, cfg, log => by
    have h := foldl_acyStep env rest (acyStep env (cfg, log) a).1
      (acyStep env (cfg, log) a).2
    rw [Prod.mk.eta] at h
    rw [List.foldl_cons, h, acyStep_fst]
    rfl

theorem append_custom_yamls_fst (env : Env) (cfg : Yaml) (apps : List String) :
    (append_custom_yamls env cfg apps).1 = applyAll env apps cfg :=
  foldl_acyStep env apps cfg []

/-- A guarded block for one application, or nothing when it declares no
such steps. -/
def guardOf (steps : List Yaml) (a : String) : List Yaml :=
  if steps.isEmpty then []
  else [wrap_with_condition (Yaml.yarr steps) ((app_and_name_from_path a).2)]

/-- The `before` guards of a list of applications, in discovery order. -/
def beforeGuards (bf : String → List Yaml) : List String → List Yaml
  | [] => []
  | a :: rest => guardOf (bf a) a ++ beforeGuards bf rest

/-- The `after` guards of a list of applications, in discovery order. -/
def afterGuards (af : String → List Yaml) : List String → List Yaml
  | [] => []
  | a :: rest => guardOf (af a) a ++ afterGuards af rest

theorem guardOf_reverse (steps : List Yaml) (a : String) :
    (guardOf steps a).reverse = guardOf steps a := by
  unfold guardOf
  split <;> simp

theorem lookupKV_ne_nil {kvs : List (String × Yaml)} {k : String} {v : Yaml}
    (h : lookupKV kvs k = some v) : kvs ≠ [] := by
  intro he
  subst he
  simp [lookupKV] at h

theorem customStepsTransform_cons (ov : List (String × Yaml)) (a : String)
    (bf af : List Yaml) (s0 : Yaml) (mid : List Yaml)
    (hbefore : lookupKV ov "before" = some (Yaml.yarr bf))
    (hafter : lookupKV ov "after" = some (Yaml.yarr af)) :
    customStepsTransform (Yaml.ymap ov) ((app_and_name_from_path a).2) (s0 :: mid)
      = s0 :: (guardOf bf a ++ (mid ++ guardOf af a)) := by
  unfold customStepsTransform
  simp only [Yaml.getD, Yaml.getKey, hbefore, hafter, Option.getD_some]
  by_cases hb : bf.isEmpty = true
  · have hb' : bf = [] := List.isEmpty_iff.mp hb
    by_cases ha : af.isEmpty = true
    · have ha' : af = [] := List.isEmpty_iff.mp ha
      simp [Yaml.truthy, hb', ha', guardOf]
    · have ha' : af.isEmpty = false := by simpa using ha
      simp [Yaml.truthy, hb', ha', guardOf]
  · have hb' : bf.isEmpty = false := by simpa using hb
    by_cases ha : af.isEmpty = true
    · have ha' : af = [] := List.isEmpty_iff.mp ha
      simp [Yaml.truthy, hb', ha', guardOf, pyInsert]
    · have ha' : af.isEmpty = false := by simpa using ha
      simp [Yaml.truthy, hb', ha', guardOf, pyInsert]

theorem applyAll_steps (env : Env) (ov : String → List (String × Yaml))
    (bf af : String → List Yaml) :
    ∀ (apps : List String) (cfg : Yaml) (s0 : Yaml) (mid : List Yaml),
      (∀ a ∈ apps,
        extends_config env (app_and_name_from_path a).1 = true ∧
        load_circle_config env (app_and_name_from_path a).1
          = some (Yaml.ymap (ov a)) ∧
        lookupKV (ov a) "before" = some (Yaml.yarr (bf a)) ∧
        lookupKV (ov a) "after" = some (Yaml.yarr (af a))) →
      getSteps cfg = some (Yaml.yarr (s0 :: mid)) →
      getSteps (applyAll env apps cfg)
        = some (Yaml.yarr (s0 :: ((beforeGuards bf apps).reverse ++ mid
            ++ afterGuards af apps)))
  | [], cfg, s0, mid, _, hsteps => by
    simpa [applyAll, beforeGuards, afterGuards] using hsteps
  | a :: rest, cfg, s0, mid, hyp, hsteps => by
    obtain ⟨hext, hload, hbefore, hafter⟩ := hyp a (by simp)
    have hrest : ∀ x ∈ rest,
        extends_config env (app_and_name_from_path x).1 = true ∧
        load_circle_config env (app_and_name_from_path x).1
          = some (Yaml.ymap (ov x)) ∧
        lookupKV (ov x) "before" = some (Yaml.yarr (bf x)) ∧
        lookupKV (ov x) "after" = some (Yaml.yarr (af x)) := by
      intro x hx
      exact hyp x (by simp [hx])
    have hne : ov a ≠ [] := lookupKV_ne_nil hbefore
    have htruthy : (Yaml.ymap (ov a)).truthy = true := by
      cases hov : ov a with
      | nil => exact absurd hov hne
      | cons kv kvs => simp [Yaml.truthy, hov]
    have hstep : stepOne env cfg a
        = merge_with_custom_steps cfg (Yaml.ymap (ov a))
            ((app_and_name_from_path a).2) := by
      unfold stepOne
      simp [hext, hload, htruthy]
    have hmerged : getSteps (stepOne env cfg a)
        = some (Yaml.yarr (s0 :: (guardOf (bf a) a ++ (mid ++ guardOf (af a) a)))) := by
      rw [hstep, merge_eq_modifySteps, getSteps_modifySteps, hsteps]
      simp only [Option.map_some', stepsImage]
      rw [customStepsTransform_cons (ov a) a (bf a) (af a) s0 mid hbefore hafter]
    have ih := applyAll_steps env ov bf af rest (stepOne env cfg a) s0
      (guardOf (bf a) a ++ (mid ++ guardOf (af a) a)) hrest hmerged
    rw [applyAll, ih]
    simp [beforeGuards, afterGuards, guardOf_reverse, List.append_assoc]

/-! ### Characterizing the matrix loop -/

/-- The job one suite contributes for a pair, if any. -/
def suiteToJob (env : Env) (app version suite : String) : Option Yaml :=
  let suite_path := joinPath test_suites_path suite
  if !env.pathExists suite_path || !is_valid env suite_path then none
  else some (mkJob app version suite_path)

/-- The diagnostic one suite contributes, if any. -/
def suiteLog (env : Env) (suite : String) : List String :=
  let suite_path := joinPath test_suites_path suite
  if !env.pathExists suite_path || !is_valid env suite_path then [invalidSuiteMsg suite]
  else []

/-- Jobs contributed by a suite list for a pair, in order. -/
def suitesJobs (env : Env) (app version : String) : List String → List Yaml
  | [] => []
  | s :: rest => (suiteToJob env app version s).toList ++ suitesJobs env app version rest

/-- Diagnostics contributed by a suite list, in order. -/
def suitesLogs (env : Env) : List String → List String
  | [] => []
  | s :: rest => suiteLog env s ++ suitesLogs env rest

theorem foldl_suiteStep (env : Env) (app version : String) :
    ∀ (suites : List String) (acc : List Yaml × List String),
      suites.foldl (suiteStep env app version) acc
        = (acc.1 ++ suitesJobs env app version suites, acc.2 ++ suitesLogs env suites)
  | [], acc => by simp [suitesJobs, suitesLogs]
  | s :: rest, acc => by
    rw [List.foldl_cons, foldl_suiteStep env app version rest]
    by_cases h : (!env.pathExists (joinPath test_suites_path s)
        || !is_valid env (joinPath test_suites_path s)) = true
    · simp [suiteStep, suiteToJob, suiteLog, suitesJobs, suitesLogs, h]
    · simp [suiteStep, suiteToJob, suiteLog, suitesJobs, suitesLogs, h]

theorem jobsForPair_invalid (env : Env) (app version : String)
    (h : is_valid env app = false) :
    jobsForPair env app version = ([], [invalidAppMsg app]) := by
  unfold jobsForPair
  simp [h]

theorem jobsForPair_valid (env : Env) (app version : String)
    (h : is_valid env app = true) :
    jobsForPair env app version
      = (suitesJobs env app version (list_test_suites_for_version env version).1,
         (list_test_suites_for_version env version).2
           ++ suitesLogs env (list_test_suites_for_version env version).1) := by
  unfold jobsForPair
  rw [foldl_suiteStep]
  simp [h]

/-- Jobs contributed by a pair list, in order. -/
def pairsJobs (env : Env) : List (String × String) → List Yaml
  | [] => []
  | p :: rest => (jobsForPair env p.1 p.2).1 ++ pairsJobs env rest

/-- Diagnostics contributed by a pair list, in order. -/
def pairsLogs (env : Env) : List (String × String) → List String
  | [] => []
  | p :: rest => (jobsForPair env p.1 p.2).2 ++ pairsLogs env rest

theorem foldl_lteStep (env : Env) :
    ∀ (pairs : List (String × String)) (acc : List Yaml × List String),
      pairs.foldl (lteStep env) acc
        = (acc.1 ++ pairsJobs env pairs, acc.2 ++ pairsLogs env pairs)
  | [], acc => by simp [pairsJobs, pairsLogs]
  | p :: rest, acc => by
    rw [List.foldl_cons, foldl_lteStep env rest]
    simp [lteStep, pairsJobs, pairsLogs]

theorem list_test_executions_eq (env : Env) (apps versions : List String) :
    list_test_executions env apps versions
      = (pairsJobs env (productPairs apps versions),
         pairsLogs env (productPairs apps versions)) := by
  unfold list_test_executions
  rw [foldl_lteStep]
  simp

theorem pairsJobs_append (env : Env) :
    ∀ l1 l2 : List (String × String),
      pairsJobs env (l1 ++ l2) = pairsJobs env l1 ++ pairsJobs env l2
  | [], l2 => by simp [pairsJobs]
  | p :: rest, l2 => by
    simp [pairsJobs, pairsJobs_append env rest l2]

theorem mem_productPairs {apps versions : List String} {a v : String} :
    (a, v) ∈ productPairs apps versions ↔ a ∈ apps ∧ v ∈ versions := by
  induction apps with
  | nil => simp [productPairs]
  | cons a0 rest ih =>
    simp only [productPairs, List.mem_append, List.mem_map, List.mem_cons, ih]
    constructor
    · rintro (⟨v0, hv0, heq⟩ | ⟨ha, hv⟩)
      · obtain ⟨rfl, rfl⟩ := Prod.mk.injEq .. ▸ And.intro (congrArg Prod.fst heq).symm
          (congrArg Prod.snd heq).symm
        exact ⟨Or.inl rfl, hv0⟩
      · exact ⟨Or.inr ha, hv⟩
    · rintro ⟨ha | ha, hv⟩
      · exact Or.inl ⟨v, hv, by rw [ha]⟩
      · exact Or.inr ⟨ha, hv⟩

theorem mem_pairsJobs {env : Env} {j : Yaml} :
    ∀ {pairs : List (String × String)}, j ∈ pairsJobs env pairs →
      ∃ p ∈ pairs, j ∈ (jobsForPair env p.1 p.2).1 := by
  intro pairs
  induction pairs with
  | nil => simp [pairsJobs]
  | cons p rest ih =>
    intro h
    rcases List.mem_append.mp h with h' | h'
    · exact ⟨p, by simp, h'⟩
    · obtain ⟨p', hp', hj⟩ := ih h'
      exact ⟨p', by simp [hp'], hj⟩

theorem mem_pairsLogs_of {env : Env} {x : String} :
    ∀ {pairs : List (String × String)} {p : String × String}, p ∈ pairs →
      x ∈ (jobsForPair env p.1 p.2).2 → x ∈ pairsLogs env pairs := by
  intro pairs
  induction pairs with
  | nil => simp
  | cons q rest ih =>
    intro p hp hx
    rcases List.mem_cons.mp hp with rfl | hp'
    · exact List.mem_append.mpr (Or.inl hx)
    · exact List.mem_append.mpr (Or.inr (ih hp' hx))

theorem mem_suitesJobs {env : Env} {a v : String} {j : Yaml} :
    ∀ {L : List String}, j ∈ suitesJobs env a v L →
      ∃ s ∈ L, suiteToJob env a v s = some j := by
  intro L
  induction L with
  | nil => simp [suitesJobs]
  | cons s rest ih =>
    intro h
    rcases List.mem_append.mp h with h' | h'
    · refine ⟨s, by simp, ?_⟩
      cases hx : suiteToJob env a v s with
      | none => rw [hx] at h'; simp [Option.toList] at h'
      | some y =>
        rw [hx] at h'
        simp only [Option.toList_some, List.mem_singleton] at h'
        rw [h']
    · obtain ⟨s', hs', hj⟩ := ih h'
      exact ⟨s', by simp [hs'], hj⟩

theorem suiteToJob_some {env : Env} {a v s : String} {j : Yaml}
    (h : suiteToJob env a v s = some j) :
    j = mkJob a v (joinPath test_suites_path s) := by
  unfold suiteToJob at h
  by_cases hc : (!env.pathExists (joinPath test_suites_path s)
      || !is_valid env (joinPath test_suites_path s)) = true
  · rw [if_pos hc] at h
    exact absurd h (by simp)
  · rw [if_neg hc] at h
    exact (Option.some.injEq .. ▸ h).symm

theorem mem_jobsForPair_fst {env : Env} {a v : String} {j : Yaml}
    (h : j ∈ (jobsForPair env a v).1) :
    is_valid env a = true ∧ ∃ s, j = mkJob a v (joinPath test_suites_path s) := by
  by_cases hval : is_valid env a = true
  · rw [jobsForPair_valid env a v hval] at h
    obtain ⟨s, _, hs⟩ := mem_suitesJobs h
    exact ⟨hval, s, (suiteToJob_some hs)⟩
  · rw [jobsForPair_invalid env a v (by simpa using hval)] at h
    simp at h

/-! ### Observers evaluated on generated jobs -/

theorem descriptorOf_mkJob (a v sp : String) :
    descriptorOf (mkJob a v sp) = some (mkDescriptor a v sp) := rfl

theorem jobAppPath_mkJob (a v sp : String) :
    jobAppPath (mkJob a v sp) = some (pathAbs a) := rfl

theorem jobName_mkJob (a v sp : String) :
    jobName (mkJob a v sp)
      = some ((app_and_name_from_path a).2 ++ " (" ++ (app_and_name_from_path sp).2
          ++ " test suite , version: " ++ v ++ ")") := rfl

theorem isJobFor_mkJob (a v sp p v' n : String) :
    isJobFor (mkJob a v sp) p v' n = true
      ↔ (pathAbs a = p ∧ v = v' ∧ basename (pathAbs sp) = n) := by
  show (decide (some (pathAbs a) = some p) && decide (some v = some v')
      && decide (some (basename (pathAbs sp)) = some n)) = true
    ↔ (pathAbs a = p ∧ v = v' ∧ basename (pathAbs sp) = n)
  simp [Bool.and_eq_true, and_assoc]

/-! ### Counting generated jobs -/

theorem countP_jobsForPair_zero (env : Env) (a v A V N : String)
    (h : pathAbs a ≠ pathAbs A ∨ v ≠ V) :
    ((jobsForPair env a v).1.countP
      (fun j => isJobFor j (pathAbs A) V N)) = 0 := by
  rw [List.countP_eq_zero]
  intro j hj hq
  obtain ⟨_, s, rfl⟩ := mem_jobsForPair_fst hj
  obtain ⟨h1, h2, _⟩ := (isJobFor_mkJob a v (joinPath test_suites_path s)
    (pathAbs A) V N).mp hq
  rcases h with h | h
  · exact h h1
  · exact h h2

theorem countP_suitesJobs (env : Env) (A V S : String)
    (hexists : env.pathExists (joinPath test_suites_path S) = true)
    (hvalidS : is_valid env (joinPath test_suites_path S) = true) :
    ∀ L : List String,
      (∀ s ∈ L, suiteNameOf s = suiteNameOf S → s = S) →
      (suitesJobs env A V L).countP
          (fun j => isJobFor j (pathAbs A) V (suiteNameOf S)) = L.count S
  | [], _ => by simp [suitesJobs]
  | s :: rest, hinj => by
    have hrest : ∀ x ∈ rest, suiteNameOf x = suiteNameOf S → x = S :=
      fun x hx => hinj x (List.mem_cons_of_mem s hx)
    have ih := countP_suitesJobs env A V S hexists hvalidS rest hrest
    by_cases hs : s = S
    · subst hs
      have hjob : suiteToJob env A V s
          = some (mkJob A V (joinPath test_suites_path s)) := by
        unfold suiteToJob
        rw [if_neg]
        simp [hexists, hvalidS]
      have hq : isJobFor (mkJob A V (joinPath test_suites_path s))
          (pathAbs A) V (suiteNameOf s) = true :=
        (isJobFor_mkJob A V (joinPath test_suites_path s)
          (pathAbs A) V (suiteNameOf s)).mpr ⟨rfl, rfl, rfl⟩
      simp [suitesJobs, hjob, List.countP_append, List.countP_cons, hq, ih,
        List.count_cons_self, Nat.add_comm]
    · have hname : suiteNameOf s ≠ suiteNameOf S :=
        fun he => hs (hinj s (by simp) he)
      have hzero : ((suiteToJob env A V s).toList.countP
          (fun j => isJobFor j (pathAbs A) V (suiteNameOf S))) = 0 := by
        cases hx : suiteToJob env A V s with
        | none => simp
        | some j =>
          have hj := suiteToJob_some hx
          subst hj
          have hq : isJobFor (mkJob A V (joinPath test_suites_path s))
              (pathAbs A) V (suiteNameOf S) = false := by
            rw [Bool.eq_false_iff]
            intro hq'
            exact hname ((isJobFor_mkJob A V (joinPath test_suites_path s)
              (pathAbs A) V (suiteNameOf S)).mp hq').2.2
          simp [List.countP_cons, hq]
      rw [suitesJobs, List.countP_append, hzero, ih, Nat.zero_add,
        List.count_cons_of_ne (Ne.symm hs)]

theorem countP_pairsJobs_ne (env : Env) (a A V N : String)
    (hne : pathAbs a ≠ pathAbs A) :
    ∀ versions : List String,
      (pairsJobs env (versions.map (fun v => (a, v)))).countP
        (fun j => isJobFor j (pathAbs A) V N) = 0
  | [] => by simp [pairsJobs]
  | v :: rest => by
    simp only [List.map_cons, pairsJobs, List.countP_append]
    rw [countP_jobsForPair_zero env a v A V N (Or.inl hne),
      countP_pairsJobs_ne env a A V N hne rest]

theorem countP_pairsJobs_A (env : Env) (A V S : String)
    (hvalidA : is_valid env A = true)
    (hS : (list_test_suites_for_version env V).1.count S = 1)
    (hSinj : ∀ s ∈ (list_test_suites_for_version env V).1,
      suiteNameOf s = suiteNameOf S → s = S)
    (hexists : env.pathExists (joinPath test_suites_path S) = true)
    (hvalidS : is_valid env (joinPath test_suites_path S) = true) :
    ∀ versions : List String,
      (pairsJobs env (versions.map (fun v => (A, v)))).countP
        (fun j => isJobFor j (pathAbs A) V (suiteNameOf S)) = versions.count V
  | [] => by simp [pairsJobs]
  | v :: rest => by
    simp only [List.map_cons, pairsJobs, List.countP_append]
    rw [countP_pairsJobs_A env A V S hvalidA hS hSinj hexists hvalidS rest]
    by_cases hv : v = V
    · rw [hv, jobsForPair_valid env A V hvalidA,
        countP_suitesJobs env A V S hexists hvalidS
          (list_test_suites_for_version env V).1 hSinj, hS,
        List.count_cons_self]
      exact Nat.add_comm 1 (rest.count V)
    · rw [countP_jobsForPair_zero env A v A V (suiteNameOf S) (Or.inr hv),
        List.count_cons_of_ne (Ne.symm hv), Nat.zero_add]

theorem countP_pairsJobs_product (env : Env) (A V S : String)
    (versions : List String)
    (hvalidA : is_valid env A = true)
    (hS : (list_test_suites_for_version env V).1.count S = 1)
    (hSinj : ∀ s ∈ (list_test_suites_for_version env V).1,
      suiteNameOf s = suiteNameOf S → s = S)
    (hexists : env.pathExists (joinPath test_suites_path S) = true)
    (hvalidS : is_valid env (joinPath test_suites_path S) = true) :
    ∀ apps : List String, (∀ a ∈ apps, pathAbs a = pathAbs A → a = A) →
      (pairsJobs env (productPairs apps versions)).countP
        (fun j => isJobFor j (pathAbs A) V (suiteNameOf S))
        = apps.count A * versions.count V
  | [], _ => by simp [productPairs, pairsJobs]
  | a :: rest, hinj => by
    have hrest : ∀ x ∈ rest, pathAbs x = pathAbs A → x = A :=
      fun x hx => hinj x (List.mem_cons_of_mem a hx)
    have ih := countP_pairsJobs_product env A V S versions hvalidA hS hSinj
      hexists hvalidS rest hrest
    rw [productPairs, pairsJobs_append, List.countP_append, ih]
    by_cases ha : a = A
    · rw [ha, countP_pairsJobs_A env A V S hvalidA hS hSinj hexists hvalidS versions,
        List.count_cons_self, Nat.succ_mul]
      exact Nat.add_comm (versions.count V) (rest.count A * versions.count V)
    · have hne : pathAbs a ≠ pathAbs A := fun he => ha (hinj a (by simp) he)
      rw [countP_pairsJobs_ne env a A V (suiteNameOf S) hne versions,
        List.count_cons_of_ne (Ne.symm ha), Nat.zero_add]

/-! ### Split and join of captured pipeline output -/

theorem pySplitChar_ne_nil (sep : Char) : ∀ s : List Char, pySplitChar sep s ≠ []
  | [] => by simp [pySplitChar]
  | c :: cs => by
    simp only [pySplitChar]
    by_cases h : c = sep
    · simp [h]
    · rw [if_neg h]
      cases hx : pySplitChar sep cs with
      | nil => simp
      | cons r0 rt => simp

theorem joinSep_pySplitChar (sep : Char) :
    ∀ s : List Char, joinSep sep (pySplitChar sep s) = s
  | [] => rfl
  | c :: cs => by
    have hne := pySplitChar_ne_nil sep cs
    have ih := joinSep_pySplitChar sep cs
    simp only [pySplitChar]
    by_cases h : c = sep
    · rw [if_pos h]
      cases hx : pySplitChar sep cs with
      | nil => exact absurd hx hne
      | cons r0 rt =>
        rw [hx] at ih
        show [] ++ sep :: joinSep sep (r0 :: rt) = c :: cs
        rw [List.nil_append, ih, h]
    · rw [if_neg h]
      cases hx : pySplitChar sep cs with
      | nil => exact absurd hx hne
      | cons r0 rt =>
        rw [hx] at ih
        cases rt with
        | nil =>
          show c :: r0 = c :: cs
          have : r0 = cs := ih
          rw [this]
        | cons r1 rt' =>
          show (c :: r0) ++ sep :: joinSep sep (r1 :: rt') = c :: cs
          rw [List.cons_append]
          have : r0 ++ sep :: joinSep sep (r1 :: rt') = cs := ih
          rw [this]

theorem pySplitChar_no_sep (sep : Char) :
    ∀ x : List Char, sep ∉ x → pySplitChar sep x = [x]
  | [], _ => rfl
  | c :: cs, h => by
    have hc : ¬c = sep := fun he => h (by simp [he])
    have ih := pySplitChar_no_sep sep cs (fun hm => h (by simp [hm]))
    simp only [pySplitChar, if_neg hc, ih]

theorem pySplitChar_append_sep (sep : Char) :
    ∀ x r : List Char, sep ∉ x →
      pySplitChar sep (x ++ sep :: r) = x :: pySplitChar sep r
  | [], r, _ => by simp [pySplitChar]
  | c :: cs, r, h => by
    have hc : ¬c = sep := fun he => h (by simp [he])
    have ih := pySplitChar_append_sep sep cs r (fun hm => h (by simp [hm]))
    show pySplitChar sep (c :: (cs ++ sep :: r)) = (c :: cs) :: pySplitChar sep r
    simp only [pySplitChar, if_neg hc]
    rw [ih]

theorem pySplitChar_joinSep (sep : Char) :
    ∀ l : List (List Char), l ≠ [] → (∀ x ∈ l, sep ∉ x) →
      pySplitChar sep (joinSep sep l) = l
  | [], h, _ => absurd rfl h
  | [x], _, hcl => by
    show pySplitChar sep x = [x]
    exact pySplitChar_no_sep sep x (hcl x (by simp))
  | x :: y :: t, _, hcl => by
    show pySplitChar sep (x ++ sep :: joinSep sep (y :: t)) = x :: (y :: t)
    rw [pySplitChar_append_sep sep x _ (hcl x (by simp))]
    rw [pySplitChar_joinSep sep (y :: t) (by simp)
      (fun z hz => hcl z (List.mem_cons_of_mem x hz))]

theorem joinSep_ne_nil (sep : Char) (x : List Char) (t : List (List Char))
    (hx : x ≠ []) : joinSep sep (x :: t) ≠ [] := by
  cases t with
  | nil => exact hx
  | cons y t' =>
    show x ++ sep :: joinSep sep (y :: t') ≠ []
    simp

theorem dropWhile_eq_self_of_head {p : Char → Bool} {s : List Char}
    (h : ∀ a, s.head? = some a → p a = false) : s.dropWhile p = s := by
  cases s with
  | nil => rfl
  | cons a t =>
    rw [List.dropWhile_cons, h a rfl]
    simp

theorem pyStrip_eq_self {s : List Char}
    (h1 : ∀ a, s.head? = some a → isSpace a = false)
    (h2 : ∀ a, s.getLast? = some a → isSpace a = false) :
    pyStrip s = s := by
  unfold pyStrip
  rw [dropWhile_eq_self_of_head h1]
  have e2 : s.reverse.dropWhile isSpace = s.reverse := by
    apply dropWhile_eq_self_of_head
    intro a ha
    rw [List.head?_reverse] at ha
    exact h2 a ha
  rw [e2, List.reverse_reverse]

theorem joinSep_head? (sep : Char) (c : Char) (cs : List Char)
    (rest : List (List Char)) :
    (joinSep sep ((c :: cs) :: rest)).head? = some c := by
  cases rest with
  | nil => rfl
  | cons y t => rfl

theorem joinSep_getLast_nonspace (sep : Char) :
    ∀ l : List (List Char),
      (∀ x ∈ l, x ≠ [] ∧ ∀ c ∈ x, isSpace c = false) →
      ∀ a, (joinSep sep l).getLast? = some a → isSpace a = false
  | [], _, a, ha => by simp [joinSep] at ha
  | [x], hcl, a, ha => by
    have hx := hcl x (by simp)
    have hmem : a ∈ x := by
      have hjx : (joinSep sep [x]) = x := rfl
      rw [hjx] at ha
      have hmem' : a ∈ x.getLast? := by rw [ha]; rfl
      obtain ⟨hxne, heq⟩ := List.mem_getLast?_eq_getLast hmem'
      rw [heq]
      exact List.getLast_mem hxne
    exact hx.2 a hmem
  | x :: y :: t, hcl, a, ha => by
    have hy := hcl y (by simp)
    have hrec := joinSep_getLast_nonspace sep (y :: t)
      (fun z hz => hcl z (List.mem_cons_of_mem x hz)) a
    apply hrec
    have hstep : (joinSep sep (x :: y :: t)).getLast?
        = (joinSep sep (y :: t)).getLast? := by
      show (x ++ sep :: joinSep sep (y :: t)).getLast? = _
      rw [List.getLast?_append_cons]
      cases hm : joinSep sep (y :: t) with
      | nil => exact absurd hm (joinSep_ne_nil sep y t hy.1)
      | cons m ms => rw [List.getLast?_cons_cons]
    rw [← hstep]
    exact ha

theorem strip_joinSep_split (l : List (List Char))
    (hne : l ≠ [])
    (hcl : ∀ x ∈ l, x ≠ [] ∧ ∀ c ∈ x, isSpace c = false) :
    pySplitChar '\n' (pyStrip (joinSep '\n' l)) = l := by
  have hstrip : pyStrip (joinSep '\n' l) = joinSep '\n' l := by
    apply pyStrip_eq_self
    · intro a ha
      cases l with
      | nil => exact absurd rfl hne
      | cons x rest =>
        have hx := hcl x (by simp)
        cases hxv : x with
        | nil => exact absurd hxv hx.1
        | cons c cs =>
          rw [hxv, joinSep_head? '\n' c cs rest] at ha
          have hac : c = a := by simpa using ha
          rw [← hac]
          exact hx.2 c (by rw [hxv]; simp)
    · intro a ha
      exact joinSep_getLast_nonspace '\n' l hcl a ha
  rw [hstrip]
  apply pySplitChar_joinSep '\n' l hne
  intro x hx hmem
  have := (hcl x hx).2 '\n' hmem
  simp [isSpace] at this

/-! ### Claim theorems -/

/-- C3: for an override document containing only a non-empty `before`
sequence, the config extender's merge inserts exactly one guarded block
immediately after the original first step of the shared job's step list,
and the list grows by exactly one element. -/
theorem c3_before_inserted_at_one (cfg : Yaml) (m : List (String × Yaml))
    (bs : List Yaml) (app_name : String) (s0 : Yaml) (rest : List Yaml)
    (hsteps : getSteps cfg = some (Yaml.yarr (s0 :: rest)))
    (hbefore : (Yaml.ymap m).getKey "before" = some (Yaml.yarr bs))
    (hbs : bs ≠ [])
    (hafter : (Yaml.ymap m).getKey "after" = none) :
    getSteps (merge_with_custom_steps cfg (Yaml.ymap m) app_name)
      = some (Yaml.yarr
          (s0 :: wrap_with_condition (Yaml.yarr bs) app_name :: rest)) ∧
    (s0 :: wrap_with_condition (Yaml.yarr bs) app_name :: rest).length
      = (s0 :: rest).length + 1 := by
  constructor
  · rw [merge_eq_modifySteps, getSteps_modifySteps, hsteps]
    cases bs with
    | nil => exact absurd rfl hbs
    | cons b bs' =>
      simp [stepsImage, customStepsTransform, Yaml.getD, hbefore, hafter,
        Yaml.truthy, pyInsert]
  · simp

/-- Concrete instantiation of the C3 theorem. -/
def cfgW : Yaml :=
  .ymap [("jobs", .ymap [("test-example", .ymap [("steps",
    .yarr [.ystr "checkout", .ystr "run tests"])])])]

/-- Concrete override with only a `before` sequence. -/
def customW : Yaml := .ymap [("before", .yarr [.ystr "b1"])]

/-- Witness for C3 at a concrete configuration and override. -/
theorem c3_witness :
    getSteps (merge_with_custom_steps cfgW customW "app1")
      = some (Yaml.yarr [Yaml.ystr "checkout",
          wrap_with_condition (Yaml.yarr [Yaml.ystr "b1"]) "app1",
          Yaml.ystr "run tests"]) :=
  (c3_before_inserted_at_one cfgW [("before", .yarr [.ystr "b1"])]
    [.ystr "b1"] "app1" (.ystr "checkout") [.ystr "run tests"]
    rfl rfl (by simp) rfl).1

/-- C1: for a valid application `A` and a version `V` whose suite listing
contains a valid suite `S` (each occurring once, with no other listed
entry aliasing the same normalized path or display name), the matrix
output contains exactly one `test-example`-wrapped descriptor for the
triple, and any descriptor for the triple carries the composite name
built from the application base name, suite base name and version. -/
theorem c1_exactly_one_descriptor (env : Env) (apps versions : List String)
    (A V S : String)
    (happs : apps.count A = 1)
    (hAinj : ∀ a ∈ apps, pathAbs a = pathAbs A → a = A)
    (hvers : versions.count V = 1)
    (hvalidA : is_valid env A = true)
    (hS : (list_test_suites_for_version env V).1.count S = 1)
    (hSinj : ∀ s ∈ (list_test_suites_for_version env V).1,
      suiteNameOf s = suiteNameOf S → s = S)
    (hexists : env.pathExists (joinPath test_suites_path S) = true)
    (hvalidS : is_valid env (joinPath test_suites_path S) = true) :
    (list_test_executions env apps versions).1.countP
        (fun j => isJobFor j (pathAbs A) V (suiteNameOf S)) = 1 ∧
    ∀ j ∈ (list_test_executions env apps versions).1,
      isJobFor j (pathAbs A) V (suiteNameOf S) = true →
      jobName j = some ((app_and_name_from_path A).2 ++ " (" ++ suiteNameOf S
        ++ " test suite , version: " ++ V ++ ")") := by
  constructor
  · rw [list_test_executions_eq]
    rw [countP_pairsJobs_product env A V S versions hvalidA hS hSinj
      hexists hvalidS apps hAinj, happs, hvers]
  · intro j hj hq
    rw [list_test_executions_eq] at hj
    obtain ⟨p, _, hjp⟩ := mem_pairsJobs hj
    obtain ⟨_, s, rfl⟩ := mem_jobsForPair_fst hjp
    obtain ⟨h1, h2, h3⟩ := (isJobFor_mkJob p.1 p.2 (joinPath test_suites_path s)
      (pathAbs A) V (suiteNameOf S)).mp hq
    have hname1 : (app_and_name_from_path p.1).2 = (app_and_name_from_path A).2 := by
      show basename (pathAbs p.1) = basename (pathAbs A)
      rw [h1]
    have hname3 : (app_and_name_from_path (joinPath test_suites_path s)).2
        = suiteNameOf S := h3
    rw [jobName_mkJob, hname1, hname3, h2]

/-- Environment with one valid application and one valid suite at one
version. -/
def envC1 : Env :=
  { isDir := fun p => p = "/repo/src/examples/app1" || p = "/repo/src/test/smoke",
    listDir := fun p =>
      if p = "/repo/src/examples/app1" || p = "/repo/src/test/smoke" then
        ["test_entrypoint.sh"]
      else [],
    isFile := fun _ => false,
    pathExists := fun p => p = "/repo/src/test/smoke",
    fileYaml := fun _ => .ynull,
    gitTagLines := ["v1.0.0"],
    checkoutLsOutput := fun _ => "smoke" }

/-- Witness for C1 at a concrete one-application, one-version matrix. -/
theorem c1_witness :
    (list_test_executions envC1 ["/repo/src/examples/app1"] ["v1.0.0"]).1.countP
        (fun j => isJobFor j (pathAbs "/repo/src/examples/app1") "v1.0.0"
          (suiteNameOf "smoke")) = 1 :=
  (c1_exactly_one_descriptor envC1 ["/repo/src/examples/app1"] ["v1.0.0"]
    "/repo/src/examples/app1" "v1.0.0" "smoke"
    (by decide) (by intro a ha _; simpa using ha) (by decide) (by decide)
    (by decide)
    (by
      intro s hs _
      have hlist : (list_test_suites_for_version envC1 "v1.0.0").1 = ["smoke"] := by
        decide
      rw [hlist] at hs
      simpa using hs)
    (by decide) (by decide)).1

/-- C2: an application lacking the entrypoint marker contributes no job
descriptor referencing it, for any version, and the run records the
skip diagnostic instead of failing. -/
theorem c2_invalid_app_excluded (env : Env) (apps versions : List String)
    (A : String)
    (hA : A ∈ apps)
    (hinvalid : is_valid env A = false)
    (hinj : ∀ a ∈ apps, pathAbs a = pathAbs A → a = A)
    (hv : versions ≠ []) :
    (∀ j ∈ (list_test_executions env apps versions).1,
      jobAppPath j ≠ some (pathAbs A)) ∧
    invalidAppMsg A ∈ (list_test_executions env apps versions).2 := by
  constructor
  · intro j hj hpath
    rw [list_test_executions_eq] at hj
    obtain ⟨p, hp, hjp⟩ := mem_pairsJobs hj
    obtain ⟨hvalid, s, rfl⟩ := mem_jobsForPair_fst hjp
    rw [jobAppPath_mkJob] at hpath
    have hpa : pathAbs p.1 = pathAbs A := by
      exact Option.some.injEq .. ▸ hpath
    have hmem : p.1 ∈ apps := by
      have := mem_productPairs.mp (by rw [← Prod.mk.eta (p := p)] at hp; exact hp)
      exact this.1
    have : p.1 = A := hinj p.1 hmem hpa
    rw [this] at hvalid
    rw [hvalid] at hinvalid
    exact Bool.true_eq_false.mp hinvalid
  · obtain ⟨v0, hv0⟩ := List.exists_mem_of_ne_nil versions hv
    rw [list_test_executions_eq]
    have hp : (A, v0) ∈ productPairs apps versions := mem_productPairs.mpr ⟨hA, hv0⟩
    apply mem_pairsLogs_of hp
    rw [jobsForPair_invalid env A v0 hinvalid]
    simp

/-- Environment with a single application directory that lacks the
entrypoint marker. -/
def envC2 : Env :=
  { isDir := fun p => p = "/repo/src/examples/bad",
    listDir := fun _ => ["README.md"],
    isFile := fun _ => false, pathExists := fun _ => false,
    fileYaml := fun _ => .ynull, gitTagLines := [],
    checkoutLsOutput := fun _ => "" }

/-- Witness for C2 at a concrete invalid application. -/
theorem c2_witness :
    invalidAppMsg "/repo/src/examples/bad"
      ∈ (list_test_executions envC2 ["/repo/src/examples/bad"] ["main"]).2 :=
  (c2_invalid_app_excluded envC2 ["/repo/src/examples/bad"] ["main"]
    "/repo/src/examples/bad" (by simp) (by decide)
    (by intro a ha _; simpa using ha) (by simp)).2

theorem grepSelectL_intro (l : List Char) (i len : Nat)
    (hi : i ≤ l.length) (hlen : len ≤ l.length)
    (hm : regexFullMatch ((l.drop i).take len) = true)
    (hw : wordBounded l i (i + len) = true) :
    grepSelectL l = true := by
  unfold grepSelectL
  rw [List.any_eq_true]
  refine ⟨i, List.mem_range.mpr (Nat.lt_succ_of_le hi), ?_⟩
  rw [List.any_eq_true]
  refine ⟨len, List.mem_range.mpr (Nat.lt_succ_of_le hlen), ?_⟩
  rw [hm, hw]
  rfl

theorem regexFullMatch_dotted (rest a b c : List Char)
    (hsplit : pySplitChar '.' rest = [a, b, c])
    (ha : nzDigits a = true) (hb : versionComponent b = true)
    (hc : versionComponent c = true) :
    regexFullMatch ('v' :: rest) = true := by
  have hinner : (match pySplitChar '.' rest with
      | [x, y, z] => nzDigits x && versionComponent y && versionComponent z
      | _ => false) = true := by
    rw [hsplit]
    simp [ha, hb, hc]
  unfold regexFullMatch
  apply Bool.or_eq_true_iff.mpr
  right
  exact hinner

/-- Every tag of the spec's stated form is selected by the word-bounded
regex filter. -/
theorem spec_form_selected (s : String) (h : specVersionTagForm s = true) :
    grepSelect s = true := by
  unfold specVersionTagForm at h
  rcases Bool.or_eq_true_iff.mp h with h | h
  · have hs : s = "latest" := by simpa using h
    rw [hs]
    decide
  · unfold grepSelect
    split at h
    · rename_i rest heq
      split at h
      · rename_i a b c heq2
        simp only [Bool.and_eq_true] at h
        obtain ⟨⟨hca, hcb⟩, hcc⟩ := h
        have hrest : rest = a ++ '.' :: (b ++ '.' :: c) := by
          have hj := joinSep_pySplitChar '.' rest
          rw [heq2] at hj
          exact hj.symm
        unfold versionComponent at hca
        rcases Bool.or_eq_true_iff.mp hca with h0 | hnz
        · have ha0 : a = ['0'] := by simpa using h0
          have hshape : s.toList = 'v' :: '0' :: '.' :: (b ++ '.' :: c) := by
            rw [heq, hrest, ha0]
            rfl
          apply grepSelectL_intro s.toList 0 2
          · exact Nat.zero_le _
          · rw [hshape]
            simp only [List.length_cons]
            omega
          · rw [hshape]
            show regexFullMatch ['v', '0'] = true
            decide
          · rw [hshape]
            unfold wordBounded
            have hg : ('v' :: '0' :: '.' :: (b ++ '.' :: c)).getD (0 + 2) ' ' = '.' := rfl
            rw [hg]
            have hw : isWordChar '.' = false := by decide
            rw [hw]
            simp
        · apply grepSelectL_intro s.toList 0 s.toList.length
          · exact Nat.zero_le _
          · exact Nat.le_refl _
          · rw [List.drop_zero, List.take_length, heq]
            exact regexFullMatch_dotted rest a b c heq2 hnz hcb hcc
          · unfold wordBounded
            simp
      · exact absurd h (by simp)
    · exact absurd h (by simp)

/-- Environment whose tag listing contains only the bare tag `v0`. -/
def envC6 : Env :=
  { isDir := fun _ => false, listDir := fun _ => [], isFile := fun _ => false,
    pathExists := fun _ => false, fileYaml := fun _ => .ynull,
    gitTagLines := ["v0"], checkoutLsOutput := fun _ => "" }

/-- C6 counterexample: the bare tag `v0` is not of the spec's stated
`v<major>.<minor>.<patch>`-or-`latest` form, yet the version listing
produces it (the regex's outer group admits the bare `v0`): the claim's
"no tag of any other form is included" fails. -/
theorem c6_counterexample :
    get_git_tags envC6 = ["v0"] ∧ specVersionTagForm "v0" = false :=
  ⟨by decide, by decide⟩

/-- C6 amended: for whitespace-free tag lines with at least one selected
line, the version listing produces exactly the lines selected by
word-bounded matching of the regex — a superset of the spec's stated form:
every tag of that form is selected, but so are others such as the bare
`v0` or tags merely containing a word-bounded match. -/
theorem c6_amended (env : Env)
    (hclean : ∀ t ∈ env.gitTagLines,
      t.toList ≠ [] ∧ ∀ c ∈ t.toList, isSpace c = false)
    (hne : env.gitTagLines.filter grepSelect ≠ []) :
    get_git_tags env = env.gitTagLines.filter grepSelect ∧
    ∀ s : String, specVersionTagForm s = true → grepSelect s = true := by
  constructor
  · have hmap : (env.gitTagLines.map String.toList).filter grepSelectL
        = (env.gitTagLines.filter grepSelect).map String.toList := by
      rw [List.filter_map]
      congr 1
    unfold get_git_tags
    rw [hmap]
    show (pySplitChar '\n' (pyStrip (joinNL
        ((env.gitTagLines.filter grepSelect).map String.toList)))).map
      (fun cs => String.mk cs) = env.gitTagLines.filter grepSelect
    have hFne : (env.gitTagLines.filter grepSelect).map String.toList ≠ [] := by
      intro hnil
      exact hne (by simpa using hnil)
    have hFcl : ∀ x ∈ (env.gitTagLines.filter grepSelect).map String.toList,
        x ≠ [] ∧ ∀ c ∈ x, isSpace c = false := by
      intro x hx
      obtain ⟨t, ht, rfl⟩ := List.mem_map.mp hx
      exact hclean t (List.mem_of_mem_filter ht)
    rw [show joinNL ((env.gitTagLines.filter grepSelect).map String.toList)
        = joinSep '\n' ((env.gitTagLines.filter grepSelect).map String.toList)
      from rfl]
    rw [strip_joinSep_split _ hFne hFcl, List.map_map]
    have hid : (fun cs => String.mk cs) ∘ String.toList = id :=
      funext (fun t => rfl)
    rw [hid, List.map_id]
  · intro s hs
    exact spec_form_selected s hs

/-- Environment with two clean tags, one of each accepted kind. -/
def envC6w : Env :=
  { isDir := fun _ => false, listDir := fun _ => [], isFile := fun _ => false,
    pathExists := fun _ => false, fileYaml := fun _ => .ynull,
    gitTagLines := ["v1.2.3", "latest"], checkoutLsOutput := fun _ => "" }

/-- Witness for the amended C6 on concrete tags, also exercising the
completeness half at a zero-major version of the stated form. -/
theorem c6_witness :
    get_git_tags envC6w = ["v1.2.3", "latest"] ∧ grepSelect "v0.1.2" = true := by
  have h := c6_amended envC6w (by decide) (by decide)
  exact ⟨by rw [h.1]; decide, h.2 "v0.1.2" (by decide)⟩

/-- C4: across the application loop of the config extender — which runs
once per application and never consults the version list — each
application's non-empty `after` sequence is appended as exactly one
guarded block at the tail, accumulating in discovery order, while each
non-empty `before` sequence is inserted at index 1, pushing earlier
before-blocks deeper (they end up in reverse discovery order behind the
original first step). -/
theorem c4_after_blocks_tail_once (env : Env)
    (ov : String → List (String × Yaml)) (bf af : String → List Yaml)
    (apps : List String) (cfg : Yaml) (s0 : Yaml) (mid : List Yaml)
    (hyp : ∀ a ∈ apps,
      extends_config env (app_and_name_from_path a).1 = true ∧
      load_circle_config env (app_and_name_from_path a).1
        = some (Yaml.ymap (ov a)) ∧
      lookupKV (ov a) "before" = some (Yaml.yarr (bf a)) ∧
      lookupKV (ov a) "after" = some (Yaml.yarr (af a)))
    (hsteps : getSteps cfg = some (Yaml.yarr (s0 :: mid))) :
    getSteps ((append_custom_yamls env cfg apps).1)
      = some (Yaml.yarr (s0 :: ((beforeGuards bf apps).reverse ++ mid
          ++ afterGuards af apps))) := by
  rw [append_custom_yamls_fst]
  exact applyAll_steps env ov bf af apps cfg s0 mid hyp hsteps

/-- Concrete application list for the C4 witness. -/
def appsC4 : List String := ["/repo/src/examples/a1", "/repo/src/examples/a2"]

/-- Concrete `before` sequences: only the first application has one. -/
def bfC4 (a : String) : List Yaml :=
  if a = "/repo/src/examples/a1" then [.ystr "b1"] else []

/-- Concrete `after` sequences: both applications have one. -/
def afC4 (a : String) : List Yaml :=
  if a = "/repo/src/examples/a1" then [.ystr "after1"] else [.ystr "after2"]

/-- Concrete override documents for the C4 witness. -/
def ovC4 (a : String) : List (String × Yaml) :=
  [("before", .yarr (bfC4 a)), ("after", .yarr (afC4 a))]

/-- Environment serving the C4 override documents. -/
def envC4 : Env :=
  { isDir := fun p => p = "/repo/src/examples/a1" || p = "/repo/src/examples/a2",
    listDir := fun p =>
      if p = "/repo/src/examples/a1" || p = "/repo/src/examples/a2" then
        ["circle_config.yml"]
      else [],
    isFile := fun p => p = "/repo/src/examples/a1/circle_config.yml"
      || p = "/repo/src/examples/a2/circle_config.yml",
    pathExists := fun _ => false,
    fileYaml := fun p =>
      if p = "/repo/src/examples/a1/circle_config.yml" then
        Yaml.ymap (ovC4 "/repo/src/examples/a1")
      else Yaml.ymap (ovC4 "/repo/src/examples/a2"),
    gitTagLines := [], checkoutLsOutput := fun _ => "" }

/-- Witness for C4 at two concrete applications with overrides. -/
theorem c4_witness :
    getSteps ((append_custom_yamls envC4 cfgW appsC4).1)
      = some (Yaml.yarr ((Yaml.ystr "checkout")
          :: ((beforeGuards bfC4 appsC4).reverse ++ [Yaml.ystr "run tests"]
            ++ afterGuards afC4 appsC4))) := by
  have hyp : ∀ a ∈ appsC4,
      extends_config envC4 (app_and_name_from_path a).1 = true ∧
      load_circle_config envC4 (app_and_name_from_path a).1
        = some (Yaml.ymap (ovC4 a)) ∧
      lookupKV (ovC4 a) "before" = some (Yaml.yarr (bfC4 a)) ∧
      lookupKV (ovC4 a) "after" = some (Yaml.yarr (afC4 a)) := by
    intro a ha
    simp only [appsC4, List.mem_cons, List.not_mem_nil, or_false] at ha
    rcases ha with rfl | rfl
    · exact ⟨by decide, rfl, rfl, rfl⟩
    · exact ⟨by decide, rfl, rfl, rfl⟩
  exact c4_after_blocks_tail_once envC4 ovC4 bfC4 afC4 appsC4 cfgW
    (.ystr "checkout") [.ystr "run tests"] hyp rfl

/-- Environment whose tag listing has no line matching the filter. -/
def envC5 : Env :=
  { isDir := fun _ => false, listDir := fun _ => [], isFile := fun _ => false,
    pathExists := fun _ => false, fileYaml := fun _ => .ynull,
    gitTagLines := ["foo"], checkoutLsOutput := fun _ => "" }

/-- C5 counterexample: with zero matching tags the version sequence handed
to the matrix builder is NOT just the floating branch — the empty capture
splits into one empty string, so the sequence is `["", "main"]`. -/
theorem c5_counterexample :
    envC5.gitTagLines.filter grepSelect = [] ∧
    availableVersions envC5 ≠ [main_branch] ∧
    availableVersions envC5 = ["", main_branch] := by
  refine ⟨by decide, by decide, by decide⟩

/-- C5 amended: with zero matching tags the version sequence is the empty
string followed by the floating branch; in every run the floating branch
is present and is the final element. -/
theorem c5_amended (env : Env) :
    (env.gitTagLines.filter grepSelect = [] →
      availableVersions env = ["", main_branch]) ∧
    (availableVersions env).getLast? = some main_branch ∧
    main_branch ∈ availableVersions env := by
  refine ⟨?_, ?_, ?_⟩
  · intro h
    have h' : (env.gitTagLines.map String.toList).filter grepSelectL = [] := by
      rw [List.filter_map]
      have hcong : env.gitTagLines.filter (grepSelectL ∘ String.toList)
          = env.gitTagLines.filter grepSelect :=
        List.filter_congr (fun t _ => rfl)
      rw [hcong, h]
      rfl
    unfold availableVersions get_git_tags
    rw [h']
    rfl
  · unfold availableVersions
    exact List.getLast?_concat _
  · unfold availableVersions
    simp

/-- Witness for the amended C5 at the concrete no-matching-tags state. -/
theorem c5_witness :
    availableVersions envC5 = ["", main_branch] ∧
    (availableVersions envC5).getLast? = some main_branch :=
  ⟨(c5_amended envC5).1 (by decide), (c5_amended envC5).2.1⟩

/-- C7: a version whose checkout-and-list output carries the `error:`
marker contributes an empty suite sequence together with one diagnostic
line, and the function returns normally. -/
theorem c7_checkout_failure (env : Env) (version : String)
    (h : containsSub "error:" (pyStrip (env.checkoutLsOutput version).toList) = true) :
    list_test_suites_for_version env version = ([], [checkoutFailMsg version]) := by
  unfold list_test_suites_for_version
  rw [if_pos h]

/-- Environment whose checkout reports an error for every version. -/
def envC7 : Env :=
  { isDir := fun _ => false, listDir := fun _ => [], isFile := fun _ => false,
    pathExists := fun _ => false, fileYaml := fun _ => .ynull,
    gitTagLines := [],
    checkoutLsOutput := fun _ => "error: pathspec did not match" }

/-- Witness for C7 at a concrete failing checkout. -/
theorem c7_witness :
    list_test_suites_for_version envC7 "v9.9.9"
      = ([], [checkoutFailMsg "v9.9.9"]) :=
  c7_checkout_failure envC7 "v9.9.9" (by decide)

/-! ### Frame lemmas for the assembly -/

theorem getKey_setKey_ne' (t : Yaml) {k k' : String} (v : Yaml) (h : k' ≠ k) :
    (t.setKey k v).getKey k' = t.getKey k' := by
  cases t with
  | ymap kvs => exact getKey_setKey_ne kvs v h
  | ynull => rfl
  | ystr s => rfl
  | yarr l => rfl

theorem getPath_single (v : Yaml) (k : String) : getPath v [k] = v.getKey k := by
  unfold getPath
  cases v.getKey k <;> rfl

theorem getPath_eq_bind (v : Yaml) (k : String) (ks : List String) :
    getPath v (k :: ks) = (v.getKey k).bind (fun w => getPath w ks) := by
  cases hx : v.getKey k <;> simp [getPath, hx]

theorem getSteps_eq_getPath (cfg : Yaml) :
    getSteps cfg = getPath cfg ["jobs", "test-example", "steps"] := by
  unfold getSteps
  cases h1 : cfg.getKey "jobs" with
  | none => simp [getPath_eq_bind, h1]
  | some j =>
    cases h2 : j.getKey "test-example" with
    | none => simp [getPath_eq_bind, h1, h2]
    | some t =>
      simp only [getPath_eq_bind, getPath_single, h1, h2, Option.some_bind]
      cases t.getKey "steps" <;> rfl

theorem stepOne_cases (env : Env) (cfg : Yaml) (a : String) :
    stepOne env cfg a = cfg ∨
    ∃ c n, stepOne env cfg a = modifySteps cfg (customStepsTransform c n) := by
  unfold stepOne
  by_cases h : (!extends_config env (app_and_name_from_path a).1) = true
  · left
    rw [if_pos h]
  · rw [if_neg h]
    cases load_circle_config env (app_and_name_from_path a).1 with
    | none => left; rfl
    | some c =>
      by_cases ht : c.truthy = true
      · right
        refine ⟨c, (app_and_name_from_path a).2, ?_⟩
        show (if c.truthy = true then
            merge_with_custom_steps cfg c (app_and_name_from_path a).2
          else cfg) = _
        rw [if_pos ht, merge_eq_modifySteps]
      · left
        show (if c.truthy = true then
            merge_with_custom_steps cfg c (app_and_name_from_path a).2
          else cfg) = cfg
        rw [if_neg ht]

theorem modifySteps_getKey_ne (cfg : Yaml) (f : List Yaml → List Yaml)
    {k : String} (h : k ≠ "jobs") :
    (modifySteps cfg f).getKey k = cfg.getKey k := by
  unfold modifySteps
  exact getKey_modifyKey_ne cfg _ h

theorem modifySteps_path_jobs_ne (cfg : Yaml) (f : List Yaml → List Yaml)
    {k : String} (h : k ≠ "test-example") :
    getPath (modifySteps cfg f) ["jobs", k] = getPath cfg ["jobs", k] := by
  rw [getPath_eq_bind, getPath_eq_bind]
  unfold modifySteps
  rw [getKey_modifyKey_self]
  cases hx : cfg.getKey "jobs" with
  | none => rfl
  | some j =>
    simp only [Option.map_some', Option.some_bind]
    rw [getPath_single, getPath_single, getKey_modifyKey_ne j _ h]

theorem modifySteps_path_te_ne (cfg : Yaml) (f : List Yaml → List Yaml)
    {k : String} (h : k ≠ "steps") :
    getPath (modifySteps cfg f) ["jobs", "test-example", k]
      = getPath cfg ["jobs", "test-example", k] := by
  rw [getPath_eq_bind, getPath_eq_bind]
  unfold modifySteps
  rw [getKey_modifyKey_self]
  cases hx : cfg.getKey "jobs" with
  | none => rfl
  | some j =>
    simp only [Option.map_some', Option.some_bind]
    rw [getPath_eq_bind, getPath_eq_bind, getKey_modifyKey_self]
    cases hy : j.getKey "test-example" with
    | none => rfl
    | some t =>
      simp only [Option.map_some', Option.some_bind]
      rw [getPath_single, getPath_single, getKey_modifyKey_ne t _ h]

theorem applyAll_getKey_ne (env : Env) {k : String} (h : k ≠ "jobs") :
    ∀ (apps : List String) (cfg : Yaml),
      (applyAll env apps cfg).getKey k = cfg.getKey k
  | [], _ => rfl
  | a :: rest, cfg => by
    show (applyAll env rest (stepOne env cfg a)).getKey k = cfg.getKey k
    rw [applyAll_getKey_ne env h rest (stepOne env cfg a)]
    rcases stepOne_cases env cfg a with he | ⟨c, n, he⟩
    · rw [he]
    · rw [he, modifySteps_getKey_ne cfg _ h]

theorem applyAll_path_jobs_ne (env : Env) {k : String} (h : k ≠ "test-example") :
    ∀ (apps : List String) (cfg : Yaml),
      getPath (applyAll env apps cfg) ["jobs", k] = getPath cfg ["jobs", k]
  | [], _ => rfl
  | a :: rest, cfg => by
    show getPath (applyAll env rest (stepOne env cfg a)) ["jobs", k] = _
    rw [applyAll_path_jobs_ne env h rest (stepOne env cfg a)]
    rcases stepOne_cases env cfg a with he | ⟨c, n, he⟩
    · rw [he]
    · rw [he, modifySteps_path_jobs_ne cfg _ h]

theorem applyAll_path_te_ne (env : Env) {k : String} (h : k ≠ "steps") :
    ∀ (apps : List String) (cfg : Yaml),
      getPath (applyAll env apps cfg) ["jobs", "test-example", k]
        = getPath cfg ["jobs", "test-example", k]
  | [], _ => rfl
  | a :: rest, cfg => by
    show getPath (applyAll env rest (stepOne env cfg a)) ["jobs", "test-example", k] = _
    rw [applyAll_path_te_ne env h rest (stepOne env cfg a)]
    rcases stepOne_cases env cfg a with he | ⟨c, n, he⟩
    · rw [he]
    · rw [he, modifySteps_path_te_ne cfg _ h]

theorem sublist_pyInsert (l : List Yaml) (n : Nat) (x : Yaml) :
    l.Sublist (pyInsert l n x) := by
  unfold pyInsert
  conv_lhs => rw [← List.take_append_drop n l]
  exact List.Sublist.append (List.Sublist.refl _) ((List.Sublist.refl _).cons x)

theorem customStepsTransform_sublist (c : Yaml) (n : String) (l : List Yaml) :
    l.Sublist (customStepsTransform c n l) := by
  unfold customStepsTransform
  by_cases hb : (c.getD "before" (Yaml.yarr [])).truthy = true
  · by_cases ha : (c.getD "after" (Yaml.yarr [])).truthy = true
    · simp only [hb, ha, if_true]
      exact List.Sublist.trans (sublist_pyInsert l 1 _)
        (List.sublist_append_left _ _)
    · simp only [hb, ha, if_true, if_false]
      exact sublist_pyInsert l 1 _
  · by_cases ha : (c.getD "after" (Yaml.yarr [])).truthy = true
    · simp only [hb, ha, if_true, if_false]
      exact List.sublist_append_left _ _
    · simp only [hb, ha, if_false]
      exact List.Sublist.refl _

theorem applyAll_steps_sublist (env : Env) :
    ∀ (apps : List String) (cfg : Yaml) (sl : List Yaml),
      getSteps cfg = some (Yaml.yarr sl) →
      ∃ sl', getSteps (applyAll env apps cfg) = some (Yaml.yarr sl')
        ∧ sl.Sublist sl'
  | [], _, sl, h => ⟨sl, h, List.Sublist.refl sl⟩
  | a :: rest, cfg, sl, h => by
    show ∃ sl', getSteps (applyAll env rest (stepOne env cfg a))
      = some (Yaml.yarr sl') ∧ sl.Sublist sl'
    rcases stepOne_cases env cfg a with he | ⟨c, n, he⟩
    · rw [he]
      exact applyAll_steps_sublist env rest cfg sl h
    · rw [he]
      have hm : getSteps (modifySteps cfg (customStepsTransform c n))
          = some (Yaml.yarr (customStepsTransform c n sl)) := by
        rw [getSteps_modifySteps, h]
        rfl
      obtain ⟨sl', hsl', hsub⟩ := applyAll_steps_sublist env rest _ _ hm
      exact ⟨sl', hsl', List.Sublist.trans (customStepsTransform_sublist c n sl) hsub⟩

theorem installJobs_getKey_ne (base : Yaml) (jobs : List Yaml)
    {k : String} (h : k ≠ "workflows") :
    (installJobs base jobs).getKey k = base.getKey k := by
  unfold installJobs
  exact getKey_modifyKey_ne base _ h

theorem installJobs_getKey_workflows (base : Yaml) (jobs : List Yaml) :
    (installJobs base jobs).getKey "workflows"
      = (base.getKey "workflows").map
          (fun w => w.modifyKey "test_everything"
            (fun t => t.setKey "jobs" (.yarr jobs))) := by
  unfold installJobs
  exact getKey_modifyKey_self base _ _

/-- C8: the assembled document and its diagnostics are a function of the
observed filesystem and version-control state alone — two runs over
environments that agree observation-for-observation on every query
produce identical output documents. -/
theorem c8_deterministic (env₁ env₂ : Env) (base : Yaml)
    (h1 : ∀ p, env₁.isDir p = env₂.isDir p)
    (h2 : ∀ p, env₁.listDir p = env₂.listDir p)
    (h3 : ∀ p, env₁.isFile p = env₂.isFile p)
    (h4 : ∀ p, env₁.pathExists p = env₂.pathExists p)
    (h5 : ∀ p, env₁.fileYaml p = env₂.fileYaml p)
    (h6 : env₁.gitTagLines = env₂.gitTagLines)
    (h7 : ∀ v, env₁.checkoutLsOutput v = env₂.checkoutLsOutput v) :
    assemble env₁ base = assemble env₂ base := by
  have henv : env₁ = env₂ := by
    cases env₁
    cases env₂
    simp only [Env.mk.injEq]
    exact ⟨funext h1, funext h2, funext h3, funext h4, funext h5, h6, funext h7⟩
  rw [henv]

/-- Witness for C8: two identical concrete states give equal output. -/
theorem c8_witness : assemble envC7 cfgW = assemble envC7 cfgW :=
  c8_deterministic envC7 envC7 cfgW (fun _ => rfl) (fun _ => rfl) (fun _ => rfl)
    (fun _ => rfl) (fun _ => rfl) rfl (fun _ => rfl)

/-- C9: assembly rewrites only the workflow job list at
`workflows.test_everything.jobs` (replaced by the matrix builder's output)
and the shared step list at `jobs.test-example.steps` (extended — the
original steps survive in order as a sublist); every other key at the
document root and along those two paths is passed through unchanged. -/
theorem c9_frame (env : Env) (base : Yaml) :
    (∀ k, k ≠ "workflows" → k ≠ "jobs" →
      ((assemble env base).1).getKey k = base.getKey k) ∧
    (∀ k, k ≠ "test_everything" →
      getPath (assemble env base).1 ["workflows", k]
        = getPath base ["workflows", k]) ∧
    (∀ k, k ≠ "jobs" →
      getPath (assemble env base).1 ["workflows", "test_everything", k]
        = getPath base ["workflows", "test_everything", k]) ∧
    (∀ k, k ≠ "test-example" →
      getPath (assemble env base).1 ["jobs", k] = getPath base ["jobs", k]) ∧
    (∀ k, k ≠ "steps" →
      getPath (assemble env base).1 ["jobs", "test-example", k]
        = getPath base ["jobs", "test-example", k]) ∧
    (∀ wm tm, base.getKey "workflows" = some (Yaml.ymap wm) →
      lookupKV wm "test_everything" = some (Yaml.ymap tm) →
      getPath (assemble env base).1 ["workflows", "test_everything", "jobs"]
        = some (Yaml.yarr (list_test_executions env (available_examples env)
            (availableVersions env)).1)) ∧
    (∀ sl, getPath base ["jobs", "test-example", "steps"] = some (Yaml.yarr sl) →
      ∃ sl', getPath (assemble env base).1 ["jobs", "test-example", "steps"]
        = some (Yaml.yarr sl') ∧ sl.Sublist sl') := by
  have hout : (assemble env base).1
      = applyAll env (available_examples env)
          (installJobs base (list_test_executions env (available_examples env)
            (availableVersions env)).1) :=
    append_custom_yamls_fst env _ _
  refine ⟨?_, ?_, ?_, ?_, ?_, ?_, ?_⟩
  · intro k hk1 hk2
    rw [hout, applyAll_getKey_ne env hk2 (available_examples env) _,
      installJobs_getKey_ne _ _ hk1]
  · intro k hk
    rw [hout, getPath_eq_bind, getPath_eq_bind,
      applyAll_getKey_ne env (by decide) (available_examples env) _,
      installJobs_getKey_workflows]
    cases hw : base.getKey "workflows" with
    | none => rfl
    | some w =>
      simp only [Option.map_some', Option.some_bind]
      rw [getPath_single, getPath_single, getKey_modifyKey_ne w _ hk]
  · intro k hk
    rw [hout, getPath_eq_bind, getPath_eq_bind,
      applyAll_getKey_ne env (by decide) (available_examples env) _,
      installJobs_getKey_workflows]
    cases hw : base.getKey "workflows" with
    | none => rfl
    | some w =>
      simp only [Option.map_some', Option.some_bind]
      rw [getPath_eq_bind, getPath_eq_bind, getKey_modifyKey_self]
      cases ht : w.getKey "test_everything" with
      | none => rfl
      | some t =>
        simp only [Option.map_some', Option.some_bind]
        rw [getPath_single, getPath_single, getKey_setKey_ne' t _ hk]
  · intro k hk
    rw [hout, applyAll_path_jobs_ne env hk (available_examples env) _,
      getPath_eq_bind, getPath_eq_bind, installJobs_getKey_ne _ _ (by decide)]
  · intro k hk
    rw [hout, applyAll_path_te_ne env hk (available_examples env) _,
      getPath_eq_bind, getPath_eq_bind, installJobs_getKey_ne _ _ (by decide)]
  · intro wm tm hw ht
    rw [hout, getPath_eq_bind,
      applyAll_getKey_ne env (by decide) (available_examples env) _,
      installJobs_getKey_workflows, hw]
    simp only [Option.map_some', Option.some_bind]
    rw [getPath_eq_bind, getKey_modifyKey_self]
    have hte : (Yaml.ymap wm).getKey "test_everything" = some (Yaml.ymap tm) := ht
    rw [hte]
    simp only [Option.map_some', Option.some_bind]
    rw [getPath_single, getKey_setKey_self]
  · intro sl hsl
    have hcfg1 : getSteps (installJobs base
        (list_test_executions env (available_examples env)
          (availableVersions env)).1) = some (Yaml.yarr sl) := by
      rw [getSteps_eq_getPath, getPath_eq_bind,
        installJobs_getKey_ne _ _ (by decide), ← getPath_eq_bind]
      exact hsl
    obtain ⟨sl', h1, h2⟩ := applyAll_steps_sublist env (available_examples env)
      _ sl hcfg1
    refine ⟨sl', ?_, h2⟩
    rw [hout, ← getSteps_eq_getPath]
    exact h1

/-- Base document with an unrelated key, for the C9 witness. -/
def baseC9 : Yaml :=
  .ymap [("version", .ystr "2.1"),
    ("workflows", .ymap [("test_everything", .ymap [("jobs", .yarr [])])]),
    ("jobs", .ymap [("test-example", .ymap [("steps", .yarr [.ystr "checkout"])])])]

/-- Witness for C9: the unrelated top-level key passes through unchanged
and the workflow job list is replaced by the matrix output. -/
theorem c9_witness :
    ((assemble envC7 baseC9).1).getKey "version" = baseC9.getKey "version" ∧
    getPath (assemble envC7 baseC9).1 ["workflows", "test_everything", "jobs"]
      = some (Yaml.yarr (list_test_executions envC7 (available_examples envC7)
          (availableVersions envC7)).1) := by
  have h := c9_frame envC7 baseC9
  exact ⟨h.1 "version" (by decide) (by decide),
    h.2.2.2.2.2.1 [("test_everything", .ymap [("jobs", .yarr [])])]
      [("jobs", .yarr [])] rfl rfl⟩

/-- C10: when checkout succeeds with an empty combined output, the suite
listing returns the one-element sequence containing the empty string; the
matrix builder resolves the empty name to the test-suites root (trailing
separator, normalizing back to the root itself), and a valid application
yields exactly the job for the root whenever that path passes the
existence and validity checks. -/
theorem c10_empty_listing_root_job (env : Env) (A V : String)
    (hout : pyStrip (env.checkoutLsOutput V).toList = [])
    (hvalidA : is_valid env A = true)
    (hexists : env.pathExists (joinPath test_suites_path "") = true)
    (hvalidRoot : is_valid env (joinPath test_suites_path "") = true) :
    (list_test_suites_for_version env V).1 = [""] ∧
    pathAbs (joinPath test_suites_path "") = test_suites_path ∧
    (list_test_executions env [A] [V]).1
      = [mkJob A V (joinPath test_suites_path "")] := by
  have hsuites : list_test_suites_for_version env V = ([""], []) := by
    unfold list_test_suites_for_version
    rw [hout]
    rfl
  refine ⟨by rw [hsuites], by decide, ?_⟩
  rw [list_test_executions_eq]
  show pairsJobs env [(A, V)] = [mkJob A V (joinPath test_suites_path "")]
  show (jobsForPair env A V).1 ++ pairsJobs env []
    = [mkJob A V (joinPath test_suites_path "")]
  rw [jobsForPair_valid env A V hvalidA, hsuites]
  show suitesJobs env A V [""] ++ []
    = [mkJob A V (joinPath test_suites_path "")]
  have hjob : suiteToJob env A V ""
      = some (mkJob A V (joinPath test_suites_path "")) := by
    unfold suiteToJob
    rw [if_neg]
    simp [hexists, hvalidRoot]
  simp [suitesJobs, hjob]

/-- Environment where the suites root listing is empty but the root itself
is a valid suite directory (with a trailing separator in the probed path). -/
def envC10 : Env :=
  { isDir := fun p => p = "/repo/src/examples/app1" || p = "/repo/src/test/",
    listDir := fun p =>
      if p = "/repo/src/examples/app1" || p = "/repo/src/test/" then
        ["test_entrypoint.sh"]
      else [],
    isFile := fun _ => false,
    pathExists := fun p => p = "/repo/src/test/",
    fileYaml := fun _ => .ynull, gitTagLines := [],
    checkoutLsOutput := fun _ => "" }

/-- Witness for C10 at a concrete empty suite listing. -/
theorem c10_witness :
    (list_test_suites_for_version envC10 "main").1 = [""] ∧
    (list_test_executions envC10 ["/repo/src/examples/app1"] ["main"]).1
      = [mkJob "/repo/src/examples/app1" "main" (joinPath test_suites_path "")] := by
  have h := c10_empty_listing_root_job envC10 "/repo/src/examples/app1" "main"
    (by decide) (by decide) (by decide) (by decide)
  exact ⟨h.1, h.2.2⟩

end GenConf
